import Mathlib

set_option maxHeartbeats 1000000

/-!
Shallow embedding of the crossword CSP solver
(src/pset3-optimization/crossword/generate.py, class CrosswordCreator).

Python dictionaries are modelled as association lists, Python sets as lists,
and the two unbounded loops (the AC-3 worklist loop and the recursive
backtracking search) are fuel-indexed: a result of `none` means the fuel ran
out, `some r` is the value the Python code returns.  Python `sorted` is a
stable sort, which is modelled by `List.insertionSort` (also stable, hence
producing the identical list for the same key function).

The class `Crossword` (file crossword.py of the repository) is not part of
the sources; its interface and invariants are modelled from the spec.
-/

/-- One word slot of the grid: start coordinates, a direction and a required
length.  Equality is by all four fields, as in the source. -/
structure Variable where
  row : Nat
  col : Nat
  down : Bool
  length : Nat
  deriving DecidableEq, Repr

/-- A candidate word. -/
abbrev Word := List Char

/-- Modelled from the spec: the constraint graph built by the external
class Crossword (crossword.py, not in the sources): a set of variables, a
shared vocabulary, and for each ordered pair of variables an optional pair
of local indices that must hold equal characters. -/
structure Crossword where
  vars : List Variable
  words : List Word
  overlaps : Variable → Variable → Option (Nat × Nat)

/-- Modelled from the spec: all variables sharing an overlap with `v`
(method Crossword.neighbors of crossword.py, not in the sources). -/
def Crossword.neighbors (cw : Crossword) (v : Variable) : List Variable :=
  cw.vars.filter (fun u => decide (¬ u = v ∧ (cw.overlaps v u).isSome))

/-- Modelled from the spec: well-formedness of the externally built graph:
the variable set has no duplicates, no variable overlaps itself, and the
overlap map is symmetric with the two indices swapped. -/
def Crossword.WF (cw : Crossword) : Prop :=
  cw.vars.Nodup ∧
  (∀ v ∈ cw.vars, cw.overlaps v v = none) ∧
  (∀ x ∈ cw.vars, ∀ y ∈ cw.vars,
    cw.overlaps y x = (cw.overlaps x y).map (fun p => (p.2, p.1)))

/-- The domain store: the Python dict mapping each variable to the list of
candidate words still considered possible. -/
abbrev Domains := List (Variable × List Word)

/-- A partial assignment: the Python dict mapping variables to chosen words,
in insertion order. -/
abbrev Assign := List (Variable × Word)

/-- Dictionary read on the domain store (missing key yields the empty list). -/
def getDomain (d : Domains) (v : Variable) : List Word :=
  match d with
  | [] => []
  | (u, ws) :: rest => if u = v then ws else getDomain rest v

/-- Dictionary write on the domain store: replace the entry of `v`. -/
def setDomain (d : Domains) (v : Variable) (ws : List Word) : Domains :=
  d.map (fun p => if p.1 = v then (v, ws) else p)

/-- Dictionary read on an assignment. -/
def lookupA (a : Assign) (v : Variable) : Option Word :=
  match a with
  | [] => none
  | (u, w) :: rest => if u = v then some w else lookupA rest v

/-- CrosswordCreator.__init__: every variable starts with a copy of the full
vocabulary. -/
def initialDomains (cw : Crossword) : Domains :=
  cw.vars.map (fun v => (v, cw.words))

/-- CrosswordCreator.enforce_node_consistency: drop from each domain the
words whose length differs from the required length of the variable. -/
def enforce_node_consistency (d : Domains) : Domains :=
  d.map (fun p => (p.1, p.2.filter (fun w => decide (w.length = p.1.length))))

/-- Inner test of CrosswordCreator.revise: some word of the neighbouring
domain agrees with `w1` at the overlap positions. -/
def hasSupport (i j : Nat) (dy : List Word) (w1 : Word) : Bool :=
  dy.any (fun w2 => decide (w1.getD i ' ' = w2.getD j ' '))

/-- CrosswordCreator.revise: remove from the domain of `x` the words with no
support in the domain of `y`; the Boolean reports whether anything was
removed. -/
def revise (cw : Crossword) (d : Domains) (x y : Variable) : Bool × Domains :=
  match cw.overlaps x y with
  | none => (false, d)
  | some (i, j) =>
    let inconsistent :=
      (getDomain d x).filter (fun w1 => !hasSupport i j (getDomain d y) w1)
    if inconsistent.isEmpty then (false, d)
    else
      (true, setDomain d x
        ((getDomain d x).filter (fun w1 => hasSupport i j (getDomain d y) w1)))

/-- The re-enqueueing loop of CrosswordCreator.ac3: append the arc (z, x) for
every neighbour z of x other than y, unless that arc is already queued. -/
def enqueueArcs (x y : Variable) (neigh : List Variable)
    (q : List (Variable × Variable)) : List (Variable × Variable) :=
  neigh.foldl
    (fun acc z => if ¬ z = y ∧ ¬ (z, x) ∈ acc then acc ++ [(z, x)] else acc) q

/-- The default initial worklist of CrosswordCreator.ac3: every arc (v1, v2)
for each variable v1 and each of its neighbours v2. -/
def defaultQueue (cw : Crossword) : List (Variable × Variable) :=
  cw.vars.flatMap (fun v1 => (cw.neighbors v1).map (fun v2 => (v1, v2)))

/-- The while-loop of CrosswordCreator.ac3, indexed by fuel (`none` means
the fuel ran out, never the case in an actual run). -/
def ac3Loop (cw : Crossword) :
    Nat → List (Variable × Variable) → Domains → Option (Bool × Domains)
  | 0, _, _ => none
  | _ + 1, [], d => some (true, d)
  | fuel + 1, (x, y) :: rest, d =>
    let r := revise cw d x y
    if r.1 then
      if (getDomain r.2 x).isEmpty then some (false, r.2)
      else ac3Loop cw fuel (enqueueArcs x y (cw.neighbors x) rest) r.2
    else ac3Loop cw fuel rest r.2

/-- CrosswordCreator.ac3: the Python parameter `arcs=None` is an optional
list; the worklist starts from `arcs` when that is truthy (not None and not
the empty list) and from the default full worklist otherwise. -/
def ac3 (cw : Crossword) (fuel : Nat) (d : Domains)
    (arcs : Option (List (Variable × Variable))) : Option (Bool × Domains) :=
  match arcs with
  | some (p :: rest) => ac3Loop cw fuel (p :: rest) d
  | _ => ac3Loop cw fuel (defaultQueue cw) d

/-- CrosswordCreator.assignment_complete. -/
def assignment_complete (cw : Crossword) (a : Assign) : Bool :=
  cw.vars.all (fun v => (lookupA a v).isSome)

/-- CrosswordCreator.consistent: assigned words are pairwise distinct, have
the required lengths, and agree with every assigned neighbour at the overlap
positions. -/
def consistent (cw : Crossword) (a : Assign) : Bool :=
  let ws := a.map (fun p => p.2)
  if ¬ ws.dedup.length = ws.length then false
  else
    a.all (fun p =>
      decide (p.2.length = p.1.length) &&
      (cw.neighbors p.1).all (fun n =>
        match lookupA a n with
        | none => true
        | some wn =>
          match cw.overlaps p.1 n with
          | none => true
          | some (i, j) => decide (p.2.getD i ' ' = wn.getD j ' ')))

/-- The counting loop of CrosswordCreator.order_domain_values: how many words
in the domains of the unassigned neighbours of `var` conflict with `w1` at
the shared overlap position. -/
def ruleOutCount (cw : Crossword) (d : Domains) (a : Assign) (var : Variable)
    (w1 : Word) : Nat :=
  (cw.neighbors var).foldl
    (fun cnt n =>
      if (lookupA a n).isSome then cnt
      else
        cnt + ((getDomain d n).filter (fun w2 =>
          match cw.overlaps var n with
          | none => false
          | some (i, j) => decide (¬ w1.getD i ' ' = w2.getD j ' '))).length)
    0

/-- CrosswordCreator.order_domain_values: the domain of `var` sorted by
ascending rule-out count (Python sorted is stable, as is insertionSort). -/
def order_domain_values (cw : Crossword) (d : Domains) (var : Variable)
    (a : Assign) : List Word :=
  (getDomain d var).insertionSort
    (fun w1 w2 => ruleOutCount cw d a var w1 ≤ ruleOutCount cw d a var w2)

/-- CrosswordCreator.select_unassigned_variable, exactly as written in the
source: sort the unassigned variables by domain size, and only when that
sort left the list unchanged re-sort by descending degree; return the head
(`none` models the IndexError on an empty list, never the case when the
assignment is incomplete). -/
def select_unassigned_variable (cw : Crossword) (d : Domains) (a : Assign) :
    Option Variable :=
  let unassigned := cw.vars.filter (fun v => (lookupA a v).isNone)
  let ranked := unassigned.insertionSort
    (fun x y => (getDomain d x).length ≤ (getDomain d y).length)
  let ranked2 :=
    if unassigned = ranked then
      unassigned.insertionSort
        (fun x y => (cw.neighbors y).length ≤ (cw.neighbors x).length)
    else ranked
  ranked2.head?

/-- Python truthiness of the result of a recursive backtrack call: None and
the empty dict are falsy. -/
def truthy : Option Assign → Bool
  | none => false
  | some m => !m.isEmpty

/-- assignment.pop(var): remove the entry of `var`. -/
def popVar (a : Assign) (v : Variable) : Assign :=
  a.filter (fun p => decide (¬ p.1 = v))

/-- The for-loop of CrosswordCreator.backtrack over the ordered candidate
values; `bt` is the recursive call at the smaller fuel.  The result carries
the returned value together with the final state of the assignment dict and
of the domain store (which backtrack never writes). -/
def tryValuesWith (cw : Crossword)
    (bt : Domains → Assign → Option (Option Assign × Assign × Domains))
    (d : Domains) (a : Assign) (var : Variable) :
    List Word → Option (Option Assign × Assign × Domains)
  | [] => some (none, a, d)
  | w :: rest =>
    let a1 := a ++ [(var, w)]
    if consistent cw a1 then
      match bt d a1 with
      | none => none
      | some (res, a2, d2) =>
        if truthy res then some (res, a2, d2)
        else tryValuesWith cw bt d2 (popVar a2 var) var rest
    else tryValuesWith cw bt d (popVar a1 var) var rest

/-- CrosswordCreator.backtrack, fuel-indexed. -/
def backtrack (cw : Crossword) :
    Nat → Domains → Assign → Option (Option Assign × Assign × Domains)
  | 0, _, _ => none
  | fuel + 1, d, a =>
    if assignment_complete cw a then some (some a, a, d)
    else
      match select_unassigned_variable cw d a with
      | none => none
      | some var =>
        tryValuesWith cw (backtrack cw fuel) d a var
          (order_domain_values cw d var a)

/-- CrosswordCreator.solve: node consistency, then AC-3 (whose Boolean result
the source ignores), then backtracking search from the empty assignment. -/
def solve (cw : Crossword) (fuel : Nat) : Option (Option Assign) :=
  let d1 := enforce_node_consistency (initialDomains cw)
  match ac3 cw fuel d1 none with
  | none => none
  | some (_, d2) =>
    match backtrack cw fuel d2 [] with
    | none => none
    | some (res, _, _) => some res

instance (cw : Crossword) : Decidable cw.WF := by
  unfold Crossword.WF
  infer_instance

/-! ### Dictionary lemmas -/

theorem lookupA_eq_none {a : Assign} {v : Variable} :
    lookupA a v = none ↔ ∀ p ∈ a, ¬ p.1 = v := by
  induction a with
  | nil => simp [lookupA]
  | cons p rest ih =>
    obtain ⟨u, w⟩ := p
    by_cases h : u = v
    · subst h
      simp [lookupA]
    · simp [lookupA, h, ih]

theorem lookupA_mem {a : Assign} {v : Variable} {w : Word}
    (h : lookupA a v = some w) : (v, w) ∈ a := by
  induction a with
  | nil => simp [lookupA] at h
  | cons p rest ih =>
    obtain ⟨u, w'⟩ := p
    by_cases hu : u = v
    · subst hu
      simp [lookupA] at h
      subst h
      exact List.mem_cons_self _ _
    · simp only [lookupA, if_neg hu] at h
      exact List.mem_cons_of_mem _ (ih h)

theorem mem_lookupA {a : Assign} {v : Variable} {w : Word}
    (hnk : (a.map Prod.fst).Nodup) (h : (v, w) ∈ a) : lookupA a v = some w := by
  induction a with
  | nil => simp at h
  | cons p rest ih =>
    obtain ⟨u, w'⟩ := p
    simp only [List.map_cons, List.nodup_cons] at hnk
    rcases List.mem_cons.mp h with h1 | h1
    · cases h1
      simp [lookupA]
    · have hu : ¬ u = v := by
        intro he
        subst he
        exact hnk.1 (List.mem_map.mpr ⟨(u, w), h1, rfl⟩)
      simp only [lookupA, if_neg hu]
      exact ih hnk.2 h1

theorem lookupA_append_left {a b : Assign} {v : Variable} {w : Word}
    (h : lookupA a v = some w) : lookupA (a ++ b) v = some w := by
  induction a with
  | nil => simp [lookupA] at h
  | cons p rest ih =>
    obtain ⟨u, w'⟩ := p
    by_cases hu : u = v
    · subst hu
      simp [lookupA] at h
      simp [lookupA, h]
    · simp only [List.cons_append, lookupA, if_neg hu] at h ⊢
      exact ih h

theorem lookupA_append_right {a b : Assign} {v : Variable}
    (h : lookupA a v = none) : lookupA (a ++ b) v = lookupA b v := by
  induction a with
  | nil => simp
  | cons p rest ih =>
    obtain ⟨u, w'⟩ := p
    by_cases hu : u = v
    · subst hu
      simp [lookupA] at h
    · simp only [List.cons_append, lookupA, if_neg hu] at h ⊢
      exact ih h

theorem lookupA_snoc_self {a : Assign} {v : Variable} {w : Word}
    (h : lookupA a v = none) : lookupA (a ++ [(v, w)]) v = some w := by
  rw [lookupA_append_right h]
  simp [lookupA]

theorem popVar_snoc {a : Assign} {var : Variable} {w : Word}
    (h : lookupA a var = none) : popVar (a ++ [(var, w)]) var = a := by
  unfold popVar
  rw [List.filter_append]
  have h2 : ∀ p ∈ a, ¬ p.1 = var := lookupA_eq_none.mp h
  rw [List.filter_eq_self.mpr (fun p hp => by simpa using h2 p hp)]
  simp [List.filter]

theorem getDomain_eq_nil_of_not_mem {d : Domains} {v : Variable}
    (h : ∀ p ∈ d, ¬ p.1 = v) : getDomain d v = [] := by
  induction d with
  | nil => rfl
  | cons p rest ih =>
    obtain ⟨u, ws⟩ := p
    have hu : ¬ u = v := h (u, ws) (List.mem_cons_self _ _)
    simp only [getDomain, if_neg hu]
    exact ih (fun q hq => h q (List.mem_cons_of_mem _ hq))

theorem setDomain_of_not_mem {d : Domains} {x : Variable} {ws : List Word}
    (h : ∀ p ∈ d, ¬ p.1 = x) : setDomain d x ws = d := by
  induction d with
  | nil => rfl
  | cons p rest ih =>
    have h1 : ¬ p.1 = x := h p (List.mem_cons_self _ _)
    simp only [setDomain, List.map_cons, if_neg h1, List.cons.injEq, true_and]
    simpa only [setDomain] using ih (fun q hq => h q (List.mem_cons_of_mem _ hq))

theorem keys_setDomain (d : Domains) (x : Variable) (ws : List Word) :
    (setDomain d x ws).map Prod.fst = d.map Prod.fst := by
  unfold setDomain
  rw [List.map_map]
  apply List.map_congr_left
  intro p _
  by_cases h : p.1 = x
  · simp [h]
  · simp [h]

theorem setDomain_cons_ne {u : Variable} {us : List Word} {rest : Domains}
    {x : Variable} {ws : List Word} (hu : ¬ u = x) :
    setDomain ((u, us) :: rest) x ws = (u, us) :: setDomain rest x ws := by
  simp [setDomain, hu]

theorem setDomain_cons_self {u : Variable} {us : List Word} {rest : Domains}
    {ws : List Word} :
    setDomain ((u, us) :: rest) u ws = (u, ws) :: setDomain rest u ws := by
  simp [setDomain]

theorem getDomain_setDomain_ne {d : Domains} {x v : Variable} {ws : List Word}
    (h : ¬ v = x) : getDomain (setDomain d x ws) v = getDomain d v := by
  induction d with
  | nil => rfl
  | cons p rest ih =>
    obtain ⟨u, us⟩ := p
    by_cases hu : u = x
    · subst hu
      rw [setDomain_cons_self]
      have h1 : ¬ u = v := fun he => h he.symm
      simp only [getDomain, if_neg h1]
      exact ih
    · rw [setDomain_cons_ne hu]
      simp only [getDomain]
      by_cases huv : u = v
      · simp [huv]
      · simp only [if_neg huv]
        exact ih

theorem getDomain_setDomain_self {d : Domains} {x : Variable} {ws : List Word}
    (h : ∃ p ∈ d, p.1 = x) : getDomain (setDomain d x ws) x = ws := by
  induction d with
  | nil => simp at h
  | cons p rest ih =>
    obtain ⟨u, us⟩ := p
    by_cases hu : u = x
    · subst hu
      rw [setDomain_cons_self]
      simp [getDomain]
    · rw [setDomain_cons_ne hu]
      simp only [getDomain, if_neg hu]
      obtain ⟨q, hq, hqx⟩ := h
      rcases List.mem_cons.mp hq with h1 | h1
      · subst h1
        exact absurd hqx hu
      · exact ih ⟨q, h1, hqx⟩

/-! ### Characterization of the consistency checker -/

theorem dedup_length_eq_iff {l : List Word} :
    l.dedup.length = l.length ↔ l.Nodup := by
  constructor
  · intro h
    rw [← List.dedup_eq_self]
    exact l.dedup_sublist.eq_of_length h
  · intro h
    rw [List.dedup_eq_self.mpr h]

/-- The three conditions checked by `consistent`, written as propositions
(with the neighbour lookup phrased exactly as the code performs it). -/
def ConsistentSpec (cw : Crossword) (a : Assign) : Prop :=
  (a.map (fun p => p.2)).Nodup ∧
  (∀ p ∈ a, p.2.length = p.1.length) ∧
  (∀ p ∈ a, ∀ n ∈ cw.neighbors p.1, ∀ wn, lookupA a n = some wn →
    ∀ i j, cw.overlaps p.1 n = some (i, j) →
      p.2.getD i ' ' = wn.getD j ' ')

theorem consistent_iff (cw : Crossword) (a : Assign) :
    consistent cw a = true ↔ ConsistentSpec cw a := by
  unfold consistent ConsistentSpec
  by_cases hd : (a.map (fun p => p.2)).dedup.length = (a.map (fun p => p.2)).length
  · simp only [hd, not_true_eq_false, if_neg (by simp : ¬ False)]
    rw [List.all_eq_true]
    constructor
    · intro h
      refine ⟨dedup_length_eq_iff.mp hd, ?_, ?_⟩
      · intro p hp
        have := h p hp
        rw [Bool.and_eq_true] at this
        exact of_decide_eq_true this.1
      · intro p hp n hn wn hwn i j hij
        have := h p hp
        rw [Bool.and_eq_true, List.all_eq_true] at this
        have h2 := this.2 n hn
        rw [hwn, hij] at h2
        exact of_decide_eq_true h2
    · rintro ⟨-, h1, h2⟩ p hp
      rw [Bool.and_eq_true]
      refine ⟨decide_eq_true (h1 p hp), ?_⟩
      rw [List.all_eq_true]
      intro n hn
      cases hwn : lookupA a n with
      | none => rfl
      | some wn =>
        cases hij : cw.overlaps p.1 n with
        | none => rfl
        | some ij =>
          obtain ⟨i, j⟩ := ij
          exact decide_eq_true (h2 p hp n hn wn hwn i j hij)
  · rw [if_pos hd]
    refine iff_of_false (by simp) ?_
    rintro ⟨hnd, -, -⟩
    exact hd (dedup_length_eq_iff.mpr hnd)

theorem mem_neighbors {cw : Crossword} {v u : Variable} :
    u ∈ cw.neighbors v ↔ u ∈ cw.vars ∧ ¬ u = v ∧ (cw.overlaps v u).isSome := by
  unfold Crossword.neighbors
  simp only [List.mem_filter, decide_eq_true_eq]

theorem neighbors_subset_vars {cw : Crossword} {v u : Variable}
    (h : u ∈ cw.neighbors v) : u ∈ cw.vars :=
  (mem_neighbors.mp h).1

/-- C6: the consistency checker returns true exactly when the assigned words
are pairwise distinct, have the required lengths, and every pair of assigned
variables sharing an overlap agrees at the overlap positions; it reads only
the currently assigned entries (the statement holds for arbitrary partial
assignments) and, being a pure function of the assignment and the graph, has
no side effects. -/
theorem consistent_contract (cw : Crossword) (a : Assign) (hwf : cw.WF)
    (hnk : (a.map Prod.fst).Nodup) (hsub : ∀ p ∈ a, p.1 ∈ cw.vars) :
    consistent cw a = true ↔
      ((a.map (fun p => p.2)).Nodup ∧
       (∀ p ∈ a, p.2.length = p.1.length) ∧
       (∀ p ∈ a, ∀ q ∈ a, ∀ i j, cw.overlaps p.1 q.1 = some (i, j) →
         p.2.getD i ' ' = q.2.getD j ' ')) := by
  rw [consistent_iff]
  unfold ConsistentSpec
  refine and_congr_right (fun _ => and_congr_right (fun _ => ?_))
  constructor
  · intro h3 p hp q hq i j hij
    have hq1 : ¬ q.1 = p.1 := by
      intro he
      rw [he] at hij
      rw [hwf.2.1 p.1 (hsub p hp)] at hij
      exact Option.noConfusion hij
    have hn : q.1 ∈ cw.neighbors p.1 :=
      mem_neighbors.mpr ⟨hsub q hq, hq1, by rw [hij]; rfl⟩
    exact h3 p hp q.1 hn q.2 (mem_lookupA hnk hq) i j hij
  · intro h3 p hp n hn wn hwn i j hij
    exact h3 p hp (n, wn) (lookupA_mem hwn) i j hij

/-- C10: calling ac3 with the explicitly empty arc list behaves identically
to calling it with no arc list: the empty list is falsy in Python, so both
calls start from the full default worklist; in particular the result and the
final domains coincide for every domain state and fuel. -/
theorem ac3_nil_arcs_eq_default (cw : Crossword) (fuel : Nat) (d : Domains) :
    ac3 cw fuel d (some []) = ac3 cw fuel d none ∧
    ac3 cw fuel d (some []) = ac3Loop cw fuel (defaultQueue cw) d :=
  ⟨rfl, rfl⟩

/-! ### Lemmas about revise and enforce_node_consistency -/

theorem exists_key_of_getDomain_ne_nil {d : Domains} {x : Variable}
    (h : ¬ getDomain d x = []) : ∃ p ∈ d, p.1 = x := by
  by_contra hc
  push_neg at hc
  exact h (getDomain_eq_nil_of_not_mem hc)

theorem revise_of_overlap_none {cw : Crossword} {d : Domains} {x y : Variable}
    (h : cw.overlaps x y = none) : revise cw d x y = (false, d) := by
  simp [revise, h]

theorem revise_getDomain_of_overlap {cw : Crossword} {d : Domains}
    {x y : Variable} {i j : Nat} (h : cw.overlaps x y = some (i, j))
    (v : Variable) :
    getDomain (revise cw d x y).2 v =
      if v = x then
        (getDomain d x).filter (fun w1 => hasSupport i j (getDomain d y) w1)
      else getDomain d v := by
  unfold revise
  rw [h]
  dsimp only
  by_cases he :
      ((getDomain d x).filter
        (fun w1 => !hasSupport i j (getDomain d y) w1)).isEmpty
  · rw [if_pos he]
    by_cases hv : v = x
    · subst hv
      rw [if_pos rfl]
      symm
      rw [List.filter_eq_self]
      intro w hw
      by_contra hns
      have hmem : w ∈ (getDomain d v).filter
          (fun w1 => !hasSupport i j (getDomain d y) w1) := by
        rw [List.mem_filter]
        exact ⟨hw, by simpa using hns⟩
      rw [List.isEmpty_iff] at he
      rw [he] at hmem
      simp at hmem
    · rw [if_neg hv]
  · rw [if_neg he]
    by_cases hv : v = x
    · subst hv
      rw [if_pos rfl]
      apply getDomain_setDomain_self
      apply exists_key_of_getDomain_ne_nil
      intro hnil
      rw [hnil] at he
      simp at he
    · rw [if_neg hv]
      exact getDomain_setDomain_ne hv

theorem revise_subset {cw : Crossword} {d : Domains} {x y v : Variable}
    {w : Word} (hw : w ∈ getDomain (revise cw d x y).2 v) :
    w ∈ getDomain d v := by
  cases h : cw.overlaps x y with
  | none =>
    rw [revise_of_overlap_none h] at hw
    exact hw
  | some ij =>
    obtain ⟨i, j⟩ := ij
    rw [revise_getDomain_of_overlap h] at hw
    by_cases hv : v = x
    · subst hv
      rw [if_pos rfl] at hw
      exact (List.mem_filter.mp hw).1
    · rw [if_neg hv] at hw
      exact hw

theorem revise_keys (cw : Crossword) (d : Domains) (x y : Variable) :
    (revise cw d x y).2.map Prod.fst = d.map Prod.fst := by
  unfold revise
  cases cw.overlaps x y with
  | none => rfl
  | some ij =>
    obtain ⟨i, j⟩ := ij
    dsimp only
    by_cases he :
        ((getDomain d x).filter
          (fun w1 => !hasSupport i j (getDomain d y) w1)).isEmpty
    · rw [if_pos he]
    · rw [if_neg he]
      exact keys_setDomain d x _

theorem revise_false_snd {cw : Crossword} {d : Domains} {x y : Variable}
    (h : (revise cw d x y).1 = false) : (revise cw d x y).2 = d := by
  unfold revise at h ⊢
  cases hov : cw.overlaps x y with
  | none => rfl
  | some ij =>
    obtain ⟨i, j⟩ := ij
    rw [hov] at h
    dsimp only at h ⊢
    by_cases he :
        ((getDomain d x).filter
          (fun w1 => !hasSupport i j (getDomain d y) w1)).isEmpty
    · rw [if_pos he]
    · rw [if_neg he] at h
      simp at h

theorem getDomain_enforce (d : Domains) (v : Variable) :
    getDomain (enforce_node_consistency d) v =
      (getDomain d v).filter (fun w => decide (w.length = v.length)) := by
  induction d with
  | nil => rfl
  | cons p rest ih =>
    obtain ⟨u, us⟩ := p
    by_cases hu : u = v
    · subst hu
      simp [enforce_node_consistency, getDomain]
    · simp only [enforce_node_consistency, List.map_cons, getDomain, if_neg hu]
      simpa [enforce_node_consistency] using ih

/-! ### AC-3 loop lemmas -/

theorem ac3Loop_zero (cw : Crossword) (q : List (Variable × Variable))
    (d : Domains) : ac3Loop cw 0 q d = none := rfl

theorem ac3Loop_nil (cw : Crossword) (fuel : Nat) (d : Domains) :
    ac3Loop cw (fuel + 1) [] d = some (true, d) := rfl

theorem ac3Loop_cons (cw : Crossword) (fuel : Nat) (x y : Variable)
    (rest : List (Variable × Variable)) (d : Domains) :
    ac3Loop cw (fuel + 1) ((x, y) :: rest) d =
      if (revise cw d x y).1 then
        if (getDomain (revise cw d x y).2 x).isEmpty then
          some (false, (revise cw d x y).2)
        else ac3Loop cw fuel (enqueueArcs x y (cw.neighbors x) rest)
          (revise cw d x y).2
      else ac3Loop cw fuel rest (revise cw d x y).2 := rfl

theorem ac3Loop_subset {cw : Crossword} :
    ∀ {fuel : Nat} {q : List (Variable × Variable)} {d : Domains} {b : Bool}
      {d' : Domains}, ac3Loop cw fuel q d = some (b, d') →
      ∀ v w, w ∈ getDomain d' v → w ∈ getDomain d v := by
  intro fuel
  induction fuel with
  | zero =>
    intro q d b d' h
    rw [ac3Loop_zero] at h
    exact Option.noConfusion h
  | succ n ih =>
    intro q d b d' h
    cases q with
    | nil =>
      rw [ac3Loop_nil] at h
      simp only [Option.some.injEq, Prod.mk.injEq] at h
      obtain ⟨-, rfl⟩ := h
      exact fun v w hw => hw
    | cons p rest =>
      obtain ⟨x, y⟩ := p
      rw [ac3Loop_cons] at h
      by_cases hr : (revise cw d x y).1
      · rw [if_pos hr] at h
        by_cases hemp : (getDomain (revise cw d x y).2 x).isEmpty
        · rw [if_pos hemp] at h
          simp only [Option.some.injEq, Prod.mk.injEq] at h
          obtain ⟨-, rfl⟩ := h
          exact fun v w hw => revise_subset hw
        · rw [if_neg hemp] at h
          exact fun v w hw => revise_subset (ih h v w hw)
      · rw [if_neg hr] at h
        rw [revise_false_snd (Bool.not_eq_true _ ▸ hr)] at h
        exact ih h

theorem ac3Loop_keys {cw : Crossword} :
    ∀ {fuel : Nat} {q : List (Variable × Variable)} {d : Domains} {b : Bool}
      {d' : Domains}, ac3Loop cw fuel q d = some (b, d') →
      d'.map Prod.fst = d.map Prod.fst := by
  intro fuel
  induction fuel with
  | zero =>
    intro q d b d' h
    rw [ac3Loop_zero] at h
    exact Option.noConfusion h
  | succ n ih =>
    intro q d b d' h
    cases q with
    | nil =>
      rw [ac3Loop_nil] at h
      simp only [Option.some.injEq, Prod.mk.injEq] at h
      obtain ⟨-, rfl⟩ := h
      rfl
    | cons p rest =>
      obtain ⟨x, y⟩ := p
      rw [ac3Loop_cons] at h
      by_cases hr : (revise cw d x y).1
      · rw [if_pos hr] at h
        by_cases hemp : (getDomain (revise cw d x y).2 x).isEmpty
        · rw [if_pos hemp] at h
          simp only [Option.some.injEq, Prod.mk.injEq] at h
          obtain ⟨-, rfl⟩ := h
          exact revise_keys cw d x y
        · rw [if_neg hemp] at h
          exact (ih h).trans (revise_keys cw d x y)
      · rw [if_neg hr] at h
        rw [revise_false_snd (Bool.not_eq_true _ ▸ hr)] at h
        exact ih h

theorem ac3_eq_ac3Loop (cw : Crossword) (fuel : Nat) (d : Domains) :
    ∀ arcs, ∃ q, ac3 cw fuel d arcs = ac3Loop cw fuel q d := by
  intro arcs
  cases arcs with
  | none => exact ⟨defaultQueue cw, rfl⟩
  | some l =>
    cases l with
    | nil => exact ⟨defaultQueue cw, rfl⟩
    | cons p rest => exact ⟨p :: rest, rfl⟩

/-- C7: node consistency and AC-3 only shrink domains.  For every variable,
enforce_node_consistency keeps exactly the words of the required length,
every domain after revise is a subset of the domain before it, and every
domain after a completed ac3 run is a subset of the domain before it. -/
theorem domains_shrink :
    (∀ d v, getDomain (enforce_node_consistency d) v =
      (getDomain d v).filter (fun w => decide (w.length = v.length))) ∧
    (∀ cw d x y v w, w ∈ getDomain (revise cw d x y).2 v →
      w ∈ getDomain d v) ∧
    (∀ cw fuel d arcs b d', ac3 cw fuel d arcs = some (b, d') →
      ∀ v w, w ∈ getDomain d' v → w ∈ getDomain d v) := by
  refine ⟨getDomain_enforce, fun cw d x y v w hw => revise_subset hw, ?_⟩
  intro cw fuel d arcs b d' h v w hw
  obtain ⟨q, hq⟩ := ac3_eq_ac3Loop cw fuel d arcs
  rw [hq] at h
  exact ac3Loop_subset h v w hw

/-! ### Arc-consistency fixpoint machinery -/

theorem hasSupport_iff {i j : Nat} {dy : List Word} {w1 : Word} :
    hasSupport i j dy w1 = true ↔
      ∃ w2 ∈ dy, w1.getD i ' ' = w2.getD j ' ' := by
  unfold hasSupport
  rw [List.any_eq_true]
  simp only [decide_eq_true_eq]

theorem enqueueArcs_nil (x y : Variable) (q : List (Variable × Variable)) :
    enqueueArcs x y [] q = q := rfl

theorem enqueueArcs_cons (x y z : Variable) (neigh : List Variable)
    (q : List (Variable × Variable)) :
    enqueueArcs x y (z :: neigh) q =
      enqueueArcs x y neigh
        (if ¬ z = y ∧ ¬ (z, x) ∈ q then q ++ [(z, x)] else q) := rfl

theorem enqueueArcs_mem_of_mem {x y : Variable} {neigh : List Variable}
    {q : List (Variable × Variable)} {e : Variable × Variable} (he : e ∈ q) :
    e ∈ enqueueArcs x y neigh q := by
  induction neigh generalizing q with
  | nil => exact he
  | cons z neigh ih =>
    rw [enqueueArcs_cons]
    by_cases hc : ¬ z = y ∧ ¬ (z, x) ∈ q
    · rw [if_pos hc]
      exact ih (List.mem_append_left _ he)
    · rw [if_neg hc]
      exact ih he

theorem enqueueArcs_mem_new {x y z : Variable} {neigh : List Variable}
    {q : List (Variable × Variable)} (hz : z ∈ neigh) (hzy : ¬ z = y) :
    (z, x) ∈ enqueueArcs x y neigh q := by
  induction neigh generalizing q with
  | nil => simp at hz
  | cons z0 neigh ih =>
    rw [enqueueArcs_cons]
    rcases List.mem_cons.mp hz with h1 | h1
    · subst h1
      by_cases hc : ¬ z = y ∧ ¬ (z, x) ∈ q
      · rw [if_pos hc]
        exact enqueueArcs_mem_of_mem
          (List.mem_append_right _ (List.mem_singleton.mpr rfl))
      · rw [if_neg hc]
        have hq : (z, x) ∈ q := by
          by_contra hnq
          exact hc ⟨hzy, hnq⟩
        exact enqueueArcs_mem_of_mem hq
    · by_cases hc : ¬ z0 = y ∧ ¬ (z0, x) ∈ q
      · rw [if_pos hc]
        exact ih h1
      · rw [if_neg hc]
        exact ih h1

theorem enqueueArcs_mem_inv {x y : Variable} {neigh : List Variable}
    {q : List (Variable × Variable)} {e : Variable × Variable}
    (he : e ∈ enqueueArcs x y neigh q) :
    e ∈ q ∨ ∃ z ∈ neigh, e = (z, x) := by
  induction neigh generalizing q with
  | nil => exact Or.inl he
  | cons z0 neigh ih =>
    rw [enqueueArcs_cons] at he
    by_cases hc : ¬ z0 = y ∧ ¬ (z0, x) ∈ q
    · rw [if_pos hc] at he
      rcases ih he with h1 | h1
      · rcases List.mem_append.mp h1 with h2 | h2
        · exact Or.inl h2
        · exact Or.inr ⟨z0, List.mem_cons_self _ _,
            List.mem_singleton.mp h2⟩
      · obtain ⟨z, hz, hez⟩ := h1
        exact Or.inr ⟨z, List.mem_cons_of_mem _ hz, hez⟩
    · rw [if_neg hc] at he
      rcases ih he with h1 | h1
      · exact Or.inl h1
      · obtain ⟨z, hz, hez⟩ := h1
        exact Or.inr ⟨z, List.mem_cons_of_mem _ hz, hez⟩

theorem revise_false_consistent {cw : Crossword} {d : Domains}
    {x y : Variable} {i j : Nat} (h : cw.overlaps x y = some (i, j))
    (hr : (revise cw d x y).1 = false) :
    ∀ w1 ∈ getDomain d x, hasSupport i j (getDomain d y) w1 = true := by
  intro w1 hw1
  unfold revise at hr
  rw [h] at hr
  dsimp only at hr
  by_cases he :
      ((getDomain d x).filter
        (fun w1 => !hasSupport i j (getDomain d y) w1)).isEmpty
  · rw [List.isEmpty_iff] at he
    by_contra hns
    have hmem : w1 ∈ (getDomain d x).filter
        (fun w1 => !hasSupport i j (getDomain d y) w1) := by
      rw [List.mem_filter]
      exact ⟨hw1, by simpa using hns⟩
    rw [he] at hmem
    simp at hmem
  · rw [if_neg he] at hr
    simp at hr

theorem revise_eq_false_of_consistent {cw : Crossword} {d : Domains}
    {x y : Variable} {i j : Nat} (h : cw.overlaps x y = some (i, j))
    (hc : ∀ w1 ∈ getDomain d x, hasSupport i j (getDomain d y) w1 = true) :
    revise cw d x y = (false, d) := by
  unfold revise
  rw [h]
  dsimp only
  rw [if_pos]
  rw [List.isEmpty_iff, List.filter_eq_nil_iff]
  intro w1 hw1
  rw [hc w1 hw1]
  simp

/-- The worklist invariant of AC-3: every overlapping ordered pair of puzzle
variables is either still queued or already arc-consistent. -/
def QueueInv (cw : Crossword) (q : List (Variable × Variable))
    (d : Domains) : Prop :=
  ∀ x ∈ cw.vars, ∀ y ∈ cw.vars, ∀ i j, cw.overlaps x y = some (i, j) →
    (x, y) ∈ q ∨ ∀ w1 ∈ getDomain d x, hasSupport i j (getDomain d y) w1 = true

theorem defaultQueue_inv (cw : Crossword) (hwf : cw.WF) (d : Domains) :
    QueueInv cw (defaultQueue cw) d := by
  intro x hx y hy i j hij
  left
  unfold defaultQueue
  rw [List.mem_flatMap]
  refine ⟨x, hx, ?_⟩
  rw [List.mem_map]
  refine ⟨y, ?_, rfl⟩
  apply mem_neighbors.mpr
  refine ⟨hy, ?_, by rw [hij]; rfl⟩
  intro he
  rw [he] at hij
  rw [hwf.2.1 x hx] at hij
  exact Option.noConfusion hij

theorem revise_true_overlap {cw : Crossword} {d : Domains} {x y : Variable}
    (hr : (revise cw d x y).1 = true) :
    ∃ i j, cw.overlaps x y = some (i, j) := by
  unfold revise at hr
  cases hov : cw.overlaps x y with
  | none =>
    rw [hov] at hr
    simp at hr
  | some ij =>
    obtain ⟨i, j⟩ := ij
    exact ⟨i, j, rfl⟩

theorem ac3Loop_fixpoint {cw : Crossword} (hwf : cw.WF) :
    ∀ {fuel : Nat} {q : List (Variable × Variable)} {d d' : Domains},
      QueueInv cw q d → ac3Loop cw fuel q d = some (true, d') →
      ∀ x ∈ cw.vars, ∀ y ∈ cw.vars, ∀ i j, cw.overlaps x y = some (i, j) →
        ∀ w1 ∈ getDomain d' x,
          hasSupport i j (getDomain d' y) w1 = true := by
  intro fuel
  induction fuel with
  | zero =>
    intro q d d' hinv h
    rw [ac3Loop_zero] at h
    exact Option.noConfusion h
  | succ n ih =>
    intro q d d' hinv h
    cases q with
    | nil =>
      rw [ac3Loop_nil] at h
      simp only [Option.some.injEq, Prod.mk.injEq] at h
      obtain ⟨-, rfl⟩ := h
      intro x hx y hy i j hij w1 hw1
      rcases hinv x hx y hy i j hij with hq | hc
      · simp at hq
      · exact hc w1 hw1
    | cons p rest =>
      obtain ⟨x0, y0⟩ := p
      rw [ac3Loop_cons] at h
      by_cases hr : (revise cw d x0 y0).1
      · obtain ⟨i0, j0, hov⟩ := revise_true_overlap hr
        by_cases hemp : (getDomain (revise cw d x0 y0).2 x0).isEmpty
        · rw [if_pos hr, if_pos hemp] at h
          simp at h
        · rw [if_pos hr, if_neg hemp] at h
          refine ih ?_ h
          intro x hx y hy i j hij
          rcases hinv x hx y hy i j hij with hq | hc
          · rcases List.mem_cons.mp hq with he | hq2
            · injection he with he1 he2
              subst he1
              subst he2
              right
              have hii : (i0, j0) = (i, j) := by
                rw [hov] at hij
                exact Option.some.inj hij
              injection hii with hii1 hii2
              subst hii1
              subst hii2
              have hyx : ¬ y = x := by
                intro he
                rw [he] at hij
                rw [hwf.2.1 x hx] at hij
                exact Option.noConfusion hij
              intro w1 hw1
              rw [revise_getDomain_of_overlap hov, if_pos rfl] at hw1
              have hsup := (List.mem_filter.mp hw1).2
              rw [revise_getDomain_of_overlap hov, if_neg hyx]
              exact hsup
            · left
              exact enqueueArcs_mem_of_mem hq2
          · by_cases hvx : x0 = y
            · subst hvx
              by_cases hux : y0 = x
              · subst hux
                right
                have hyx0 : ¬ y0 = x0 := by
                  intro he
                  rw [he] at hov
                  rw [hwf.2.1 x0 hy] at hov
                  exact Option.noConfusion hov
                have hsymm := hwf.2.2 x0 hy y0 hx
                rw [hov] at hsymm
                have hii : (j0, i0) = (i, j) := by
                  rw [hsymm] at hij
                  exact Option.some.inj hij
                injection hii with hii1 hii2
                subst hii1
                subst hii2
                intro w1 hw1
                rw [revise_getDomain_of_overlap hov, if_neg hyx0] at hw1
                have hs := hc w1 hw1
                rw [hasSupport_iff] at hs
                obtain ⟨w2, hw2, heq⟩ := hs
                rw [hasSupport_iff]
                refine ⟨w2, ?_, heq⟩
                rw [revise_getDomain_of_overlap hov, if_pos rfl]
                rw [List.mem_filter]
                refine ⟨hw2, ?_⟩
                rw [hasSupport_iff]
                exact ⟨w1, hw1, heq.symm⟩
              · left
                refine enqueueArcs_mem_new ?_ (fun he => hux he.symm)
                apply mem_neighbors.mpr
                have hxx0 : ¬ x = x0 := by
                  intro he
                  rw [he] at hij
                  rw [hwf.2.1 x0 hy] at hij
                  exact Option.noConfusion hij
                refine ⟨hx, hxx0, ?_⟩
                have hsymm := hwf.2.2 x hx x0 hy
                rw [hij] at hsymm
                rw [hsymm]
                rfl
            · right
              intro w1 hw1
              have hw1' : w1 ∈ getDomain d x := revise_subset hw1
              have hs := hc w1 hw1'
              rw [revise_getDomain_of_overlap hov,
                if_neg (fun he => hvx he.symm)]
              exact hs
      · rw [if_neg hr] at h
        rw [revise_false_snd (Bool.not_eq_true _ ▸ hr)] at h
        refine ih ?_ h
        intro x hx y hy i j hij
        rcases hinv x hx y hy i j hij with hq | hc
        · rcases List.mem_cons.mp hq with he | hq2
          · injection he with he1 he2
            subst he1
            subst he2
            right
            exact revise_false_consistent hij (Bool.not_eq_true _ ▸ hr)
          · left
            exact hq2
        · right
          exact hc

/-- C4: whenever ac3 started from the default full worklist returns True,
the final domains are an arc-consistency fixpoint: for every ordered pair of
overlapping puzzle variables and every word remaining in the first domain
there is a supporting word in the second domain, so a further revision of
any arc between puzzle variables removes nothing from any domain. -/
theorem ac3_fixpoint (cw : Crossword) (hwf : cw.WF) (fuel : Nat)
    (d d' : Domains) (h : ac3 cw fuel d none = some (true, d')) :
    (∀ x ∈ cw.vars, ∀ y ∈ cw.vars, ∀ i j, cw.overlaps x y = some (i, j) →
      ∀ w1 ∈ getDomain d' x, ∃ w2 ∈ getDomain d' y,
        w1.getD i ' ' = w2.getD j ' ') ∧
    (∀ x ∈ cw.vars, ∀ y ∈ cw.vars, revise cw d' x y = (false, d')) := by
  have hfix := ac3Loop_fixpoint hwf (defaultQueue_inv cw hwf d) h
  constructor
  · intro x hx y hy i j hij w1 hw1
    exact hasSupport_iff.mp (hfix x hx y hy i j hij w1 hw1)
  · intro x hx y hy
    cases hov : cw.overlaps x y with
    | none => exact revise_of_overlap_none hov
    | some ij =>
      obtain ⟨i, j⟩ := ij
      exact revise_eq_false_of_consistent hov (hfix x hx y hy i j hov)

/-! ### Concrete instances used by the witnesses -/

def vA : Variable := ⟨0, 0, false, 3⟩

def vB : Variable := ⟨0, 1, true, 3⟩

def wADD : Word := ['A', 'D', 'D']

def wBAD : Word := ['B', 'A', 'D']

def wCAB : Word := ['C', 'A', 'B']

/-- A two-variable solvable puzzle in the style of Scenario A of the spec. -/
def cwA : Crossword :=
  ⟨[vA, vB], [wADD, wBAD, wCAB], fun u v =>
    if u = vA ∧ v = vB then some (1, 0)
    else if u = vB ∧ v = vA then some (0, 1)
    else none⟩

def dA : Domains := enforce_node_consistency (initialDomains cwA)

def d2A : Domains := [(vA, [wBAD, wCAB]), (vB, [wADD])]

def vC : Variable := ⟨5, 5, false, 3⟩

def vD : Variable := ⟨5, 5, true, 3⟩

def wAAA : Word := ['A', 'A', 'A']

def wBBB : Word := ['B', 'B', 'B']

/-- A two-variable unsolvable puzzle: the overlap admits no agreeing pair. -/
def cwF : Crossword :=
  ⟨[vC, vD], [wAAA, wBBB], fun u v =>
    if u = vC ∧ v = vD then some (0, 0)
    else if u = vD ∧ v = vC then some (0, 0)
    else none⟩

def dF : Domains := [(vC, [wAAA]), (vD, [wBBB])]

def dF1 : Domains := [(vC, []), (vD, [wBBB])]

/-- A one-variable puzzle with no overlaps. -/
def vSolo : Variable := ⟨0, 0, false, 3⟩

def cwSolo : Crossword := ⟨[vSolo], [wADD], fun _ _ => none⟩

theorem ac3_fixpoint_witness :
    cwA.WF ∧ ac3 cwA 10 dA none = some (true, d2A) ∧
    (∃ w2 ∈ getDomain d2A vB, wBAD.getD 1 ' ' = w2.getD 0 ' ') :=
  ⟨by decide, by decide,
    (ac3_fixpoint cwA (by decide) 10 dA d2A (by decide)).1 vA (by decide) vB
      (by decide) 1 0 (by decide) wBAD (by decide)⟩

/-- C5 counterexample: a domain that is already empty when ac3 starts is not
detected: with a single overlap-free variable whose domain is empty, ac3
started from the default worklist drains the (empty) worklist and returns
True, contradicting the claim that it returns False whenever a domain is
empty at the start of the run. -/
theorem ac3_empty_start_returns_true :
    ac3 cwSolo 1 [(vSolo, [])] none = some (true, [(vSolo, [])]) ∧
    getDomain [(vSolo, [])] vSolo = [] := by
  exact ⟨by decide, by decide⟩

/-- C5 (amended): during a run of ac3, if revising the popped arc empties the
revised variable's domain, ac3 returns False immediately with the current
domains, processing no further arc; if the worklist drains, ac3 returns True
with the current domains, even when some domain was already empty at entry;
and whenever ac3 returns False, some variable's domain is empty at exit. -/
theorem ac3_result_semantics :
    (∀ cw fuel x y (rest : List (Variable × Variable)) d d1,
      revise cw d x y = (true, d1) → getDomain d1 x = [] →
      ac3Loop cw (fuel + 1) ((x, y) :: rest) d = some (false, d1)) ∧
    (∀ cw fuel (d : Domains), ac3Loop cw (fuel + 1) [] d = some (true, d)) ∧
    (∀ cw fuel q d d', ac3Loop cw fuel q d = some (false, d') →
      ∃ x, getDomain d' x = []) := by
  refine ⟨?_, fun cw fuel d => ac3Loop_nil cw fuel d, ?_⟩
  · intro cw fuel x y rest d d1 hrev hemp
    rw [ac3Loop_cons, hrev]
    simp [hemp]
  · intro cw fuel
    induction fuel with
    | zero =>
      intro q d d' h
      rw [ac3Loop_zero] at h
      exact Option.noConfusion h
    | succ n ih =>
      intro q d d' h
      cases q with
      | nil =>
        rw [ac3Loop_nil] at h
        simp at h
      | cons p rest =>
        obtain ⟨x, y⟩ := p
        rw [ac3Loop_cons] at h
        by_cases hr : (revise cw d x y).1
        · by_cases hemp : (getDomain (revise cw d x y).2 x).isEmpty
          · rw [if_pos hr, if_pos hemp] at h
            simp only [Option.some.injEq, Prod.mk.injEq] at h
            obtain ⟨-, rfl⟩ := h
            exact ⟨x, List.isEmpty_iff.mp hemp⟩
          · rw [if_pos hr, if_neg hemp] at h
            exact ih _ _ _ h
        · rw [if_neg hr] at h
          exact ih _ _ _ h

theorem ac3_result_semantics_witness :
    ac3Loop cwF 1 [(vC, vD)] dF = some (false, dF1) ∧
    ac3Loop cwF 1 [] dF = some (true, dF) ∧
    (∃ x, getDomain dF1 x = []) := by
  refine ⟨ac3_result_semantics.1 cwF 0 vC vD [] dF dF1 (by decide) (by decide),
    ac3_result_semantics.2.1 cwF 0 dF,
    ac3_result_semantics.2.2 cwF 1 [(vC, vD)] dF dF1 ?_⟩
  exact ac3_result_semantics.1 cwF 0 vC vD [] dF dF1 (by decide) (by decide)

def vE : Variable := ⟨0, 0, false, 3⟩

def vG : Variable := ⟨1, 0, false, 3⟩

def vH : Variable := ⟨2, 0, true, 3⟩

/-- Three variables, of which only vG and vH overlap; vH is assigned, so vE
(domain size 1, degree 0) and vG (domain size 2, degree 1) are unassigned. -/
def cwSel : Crossword :=
  ⟨[vE, vG, vH], [wADD, wBAD, wCAB], fun u v =>
    if u = vG ∧ v = vH then some (0, 0)
    else if u = vH ∧ v = vG then some (0, 0)
    else none⟩

def dSel : Domains := [(vE, [wADD]), (vG, [wADD, wBAD]), (vH, [wCAB])]

def aSel : Assign := [(vH, wCAB)]

/-- C3: the selection heuristic of the source is broken.  Here vE and vG are
both unassigned, the domain of vE is strictly smaller than the domain of vG,
yet select_unassigned_variable returns vG (because after the domain-size
sort left the order unchanged, the code re-sorts purely by descending degree
and discards the minimum-remaining-values criterion), contradicting its own
docstring and the spec. -/
theorem select_unassigned_variable_mrv_bug :
    select_unassigned_variable cwSel dSel aSel = some vG ∧
    lookupA aSel vE = none ∧ vE ∈ cwSel.vars ∧
    (getDomain dSel vE).length < (getDomain dSel vG).length :=
  ⟨by decide, by decide, by decide, by decide⟩

/-! ### Value ordering (C8) -/

/-- The number of words of the domain of `n` conflicting with `w1` at the
overlap of `var` and `n`. -/
def conflictCount (cw : Crossword) (d : Domains) (var n : Variable)
    (w1 : Word) : Nat :=
  ((getDomain d n).filter (fun w2 =>
    match cw.overlaps var n with
    | none => false
    | some (i, j) => decide (¬ w1.getD i ' ' = w2.getD j ' '))).length

theorem foldl_skip_count (f : Variable → Nat) (g : Variable → Bool) :
    ∀ (l : List Variable) (c : Nat),
      l.foldl (fun cnt n => if g n then cnt else cnt + f n) c =
        c + ((l.filter (fun n => !g n)).map f).sum := by
  intro l
  induction l with
  | nil =>
    intro c
    simp
  | cons n l ih =>
    intro c
    by_cases hn : g n
    · simp only [List.foldl_cons, List.filter_cons, hn]
      simpa using ih c
    · have hn' : g n = false := Bool.not_eq_true _ ▸ hn
      simp only [List.foldl_cons, List.filter_cons, hn', Bool.not_false,
        Bool.false_eq_true, if_false, if_true, List.map_cons, List.sum_cons]
      rw [ih (c + f n)]
      omega

theorem ruleOutCount_eq_sum (cw : Crossword) (d : Domains) (a : Assign)
    (var : Variable) (w1 : Word) :
    ruleOutCount cw d a var w1 =
      (((cw.neighbors var).filter (fun n => (lookupA a n).isNone)).map
        (fun n => conflictCount cw d var n w1)).sum := by
  unfold ruleOutCount
  show (cw.neighbors var).foldl
      (fun cnt n => if (lookupA a n).isSome then cnt
        else cnt + conflictCount cw d var n w1) 0 = _
  rw [foldl_skip_count (fun n => conflictCount cw d var n w1)
    (fun n => (lookupA a n).isSome)]
  rw [Nat.zero_add]
  have hfe : (cw.neighbors var).filter (fun n => !(lookupA a n).isSome) =
      (cw.neighbors var).filter (fun n => (lookupA a n).isNone) := by
    apply List.filter_congr
    intro n _
    cases lookupA a n <;> rfl
  rw [hfe]

/-- C8: order_domain_values returns a permutation of the current domain of
`var`, sorted in ascending order of the number of values the word would rule
out across the unassigned neighbours of `var`, where that number is the sum,
over the unassigned neighbours, of the count of words in the neighbour's
domain conflicting at the shared overlap positions (assigned neighbours
contribute nothing). -/
theorem order_domain_values_spec (cw : Crossword) (d : Domains)
    (var : Variable) (a : Assign) :
    (order_domain_values cw d var a).Perm (getDomain d var) ∧
    (order_domain_values cw d var a).Sorted
      (fun w1 w2 =>
        ruleOutCount cw d a var w1 ≤ ruleOutCount cw d a var w2) ∧
    (∀ w1, ruleOutCount cw d a var w1 =
      (((cw.neighbors var).filter (fun n => (lookupA a n).isNone)).map
        (fun n => conflictCount cw d var n w1)).sum) := by
  refine ⟨List.perm_insertionSort _ _, ?_,
    fun w1 => ruleOutCount_eq_sum cw d a var w1⟩
  haveI htot : IsTotal Word
      (fun w1 w2 => ruleOutCount cw d a var w1 ≤ ruleOutCount cw d a var w2) :=
    ⟨fun u v => Nat.le_total _ _⟩
  haveI htrans : IsTrans Word
      (fun w1 w2 => ruleOutCount cw d a var w1 ≤ ruleOutCount cw d a var w2) :=
    ⟨fun u v t h1 h2 => le_trans h1 h2⟩
  exact List.sorted_insertionSort _ _

/-! ### Backtracking search machinery -/

theorem select_some_spec {cw : Crossword} {d : Domains} {a : Assign}
    {var : Variable} (h : select_unassigned_variable cw d a = some var) :
    var ∈ cw.vars ∧ lookupA a var = none := by
  simp only [select_unassigned_variable] at h
  have hmem : var ∈ cw.vars.filter (fun v => (lookupA a v).isNone) := by
    by_cases hc : cw.vars.filter (fun v => (lookupA a v).isNone) =
        (cw.vars.filter (fun v => (lookupA a v).isNone)).insertionSort
          (fun x y => (getDomain d x).length ≤ (getDomain d y).length)
    · rw [if_pos hc] at h
      exact (List.perm_insertionSort _ _).mem_iff.mp (List.mem_of_mem_head? h)
    · rw [if_neg hc] at h
      exact (List.perm_insertionSort _ _).mem_iff.mp (List.mem_of_mem_head? h)
  rw [List.mem_filter] at hmem
  refine ⟨hmem.1, ?_⟩
  have := hmem.2
  cases he : lookupA a var with
  | none => rfl
  | some w =>
    rw [he] at this
    simp at this

theorem select_isSome_of_not_complete {cw : Crossword} {d : Domains}
    {a : Assign} (h : assignment_complete cw a = false) :
    ∃ var, select_unassigned_variable cw d a = some var := by
  have hex : ∃ v ∈ cw.vars, (lookupA a v).isNone := by
    unfold assignment_complete at h
    rw [List.all_eq_false] at h
    obtain ⟨v, hv, hp⟩ := h
    refine ⟨v, hv, ?_⟩
    cases he : lookupA a v with
    | none => rfl
    | some w =>
      rw [he] at hp
      simp at hp
  obtain ⟨v, hv, hnone⟩ := hex
  have hvf : v ∈ cw.vars.filter (fun v => (lookupA a v).isNone) :=
    List.mem_filter.mpr ⟨hv, hnone⟩
  have hne : ¬ cw.vars.filter (fun v => (lookupA a v).isNone) = [] := by
    intro he
    rw [he] at hvf
    simp at hvf
  simp only [select_unassigned_variable]
  by_cases hc : cw.vars.filter (fun v => (lookupA a v).isNone) =
      (cw.vars.filter (fun v => (lookupA a v).isNone)).insertionSort
        (fun x y => (getDomain d x).length ≤ (getDomain d y).length)
  · rw [if_pos hc]
    cases hh : ((cw.vars.filter (fun v => (lookupA a v).isNone)).insertionSort
        (fun x y => (cw.neighbors y).length ≤ (cw.neighbors x).length)).head?
        with
    | some var => exact ⟨var, rfl⟩
    | none =>
      rw [List.head?_eq_none_iff] at hh
      have hp := List.perm_insertionSort
        (fun x y : Variable => (cw.neighbors y).length ≤ (cw.neighbors x).length)
        (cw.vars.filter (fun v => (lookupA a v).isNone))
      rw [hh] at hp
      exact absurd hp.symm.eq_nil hne
  · rw [if_neg hc]
    cases hh : ((cw.vars.filter (fun v => (lookupA a v).isNone)).insertionSort
        (fun x y => (getDomain d x).length ≤ (getDomain d y).length)).head? with
    | some var => exact ⟨var, rfl⟩
    | none =>
      rw [List.head?_eq_none_iff] at hh
      have hp := List.perm_insertionSort
        (fun x y : Variable =>
          (getDomain d x).length ≤ (getDomain d y).length)
        (cw.vars.filter (fun v => (lookupA a v).isNone))
      rw [hh] at hp
      exact absurd hp.symm.eq_nil hne

theorem tryValuesWith_nil (cw : Crossword)
    (bt : Domains → Assign → Option (Option Assign × Assign × Domains))
    (d : Domains) (a : Assign) (var : Variable) :
    tryValuesWith cw bt d a var [] = some (none, a, d) := rfl

theorem tryValuesWith_cons (cw : Crossword)
    (bt : Domains → Assign → Option (Option Assign × Assign × Domains))
    (d : Domains) (a : Assign) (var : Variable) (w : Word)
    (rest : List Word) :
    tryValuesWith cw bt d a var (w :: rest) =
      if consistent cw (a ++ [(var, w)]) then
        match bt d (a ++ [(var, w)]) with
        | none => none
        | some (res, a2, d2) =>
          if truthy res then some (res, a2, d2)
          else tryValuesWith cw bt d2 (popVar a2 var) var rest
      else tryValuesWith cw bt d (popVar (a ++ [(var, w)]) var) var rest := rfl

theorem backtrack_zero (cw : Crossword) (d : Domains) (a : Assign) :
    backtrack cw 0 d a = none := rfl

theorem backtrack_succ (cw : Crossword) (fuel : Nat) (d : Domains)
    (a : Assign) :
    backtrack cw (fuel + 1) d a =
      if assignment_complete cw a then some (some a, a, d)
      else
        match select_unassigned_variable cw d a with
        | none => none
        | some var =>
          tryValuesWith cw (backtrack cw fuel) d a var
            (order_domain_values cw d var a) := rfl

theorem tryValues_state {cw : Crossword} {fuel : Nat}
    (IH : ∀ d a r, backtrack cw fuel d a = some r →
      r.2.2 = d ∧ (r.1 = none → r.2.1 = a) ∧
      (∀ m, r.1 = some m → r.2.1 = m ∧ a.length ≤ m.length))
    {d : Domains} {a : Assign} {var : Variable}
    (hvar : lookupA a var = none) :
    ∀ {vals : List Word} {res : Option Assign} {a2 : Assign} {d2 : Domains},
      tryValuesWith cw (backtrack cw fuel) d a var vals =
        some (res, a2, d2) →
      d2 = d ∧ (res = none → a2 = a) ∧
      (∀ m, res = some m → a2 = m ∧ a.length + 1 ≤ m.length) := by
  intro vals
  induction vals with
  | nil =>
    intro res a2 d2 h
    rw [tryValuesWith_nil] at h
    simp only [Option.some.injEq, Prod.mk.injEq] at h
    obtain ⟨h1, h2, h3⟩ := h
    subst h1
    subst h2
    subst h3
    exact ⟨rfl, fun _ => rfl, fun m hm => Option.noConfusion hm⟩
  | cons w rest ih =>
    intro res a2 d2 h
    rw [tryValuesWith_cons] at h
    by_cases hcons : consistent cw (a ++ [(var, w)])
    · rw [if_pos hcons] at h
      cases hbt : backtrack cw fuel d (a ++ [(var, w)]) with
      | none =>
        rw [hbt] at h
        exact Option.noConfusion h
      | some r =>
        obtain ⟨r1, ra, rd⟩ := r
        rw [hbt] at h
        have hIH := IH d (a ++ [(var, w)]) (r1, ra, rd) hbt
        dsimp only at h
        by_cases htr : truthy r1
        · rw [if_pos htr] at h
          simp only [Option.some.injEq, Prod.mk.injEq] at h
          obtain ⟨h1, h2, h3⟩ := h
          subst h1
          subst h2
          subst h3
          refine ⟨hIH.1, ?_, ?_⟩
          · intro hres
            rw [hres] at htr
            simp [truthy] at htr
          · intro m hm
            have hm2 := hIH.2.2 m hm
            refine ⟨hm2.1, ?_⟩
            have := hm2.2
            rw [List.length_append] at this
            simpa using this
        · rw [if_neg htr] at h
          cases r1 with
          | none =>
            have hra : ra = a ++ [(var, w)] := hIH.2.1 rfl
            have hrd : rd = d := hIH.1
            rw [hra, hrd, popVar_snoc hvar] at h
            exact ih h
          | some m =>
            have hm2 := hIH.2.2 m rfl
            have hmnil : m = [] := by
              have h5 : ¬ (m.isEmpty = false) :=
                fun hf => htr (by simp [truthy, hf])
              cases he : m.isEmpty with
              | false => exact absurd he h5
              | true => exact List.isEmpty_iff.mp he
            have hlen := hm2.2
            rw [hmnil, List.length_append] at hlen
            simp at hlen
    · rw [if_neg hcons, popVar_snoc hvar] at h
      exact ih h

theorem backtrack_state {cw : Crossword} :
    ∀ {fuel : Nat} {d : Domains} {a : Assign}
      {r : Option Assign × Assign × Domains},
      backtrack cw fuel d a = some r →
      r.2.2 = d ∧ (r.1 = none → r.2.1 = a) ∧
      (∀ m, r.1 = some m → r.2.1 = m ∧ a.length ≤ m.length) := by
  intro fuel
  induction fuel with
  | zero =>
    intro d a r h
    rw [backtrack_zero] at h
    exact Option.noConfusion h
  | succ n ih =>
    intro d a r h
    rw [backtrack_succ] at h
    by_cases hcomp : assignment_complete cw a
    · rw [if_pos hcomp] at h
      have hr : r = (some a, a, d) := (Option.some.inj h).symm
      subst hr
      refine ⟨rfl, fun hc => Option.noConfusion hc, fun m hm => ?_⟩
      have ham := Option.some.inj hm
      exact ⟨ham, by rw [ham]⟩
    · rw [if_neg hcomp] at h
      cases hsel : select_unassigned_variable cw d a with
      | none =>
        rw [hsel] at h
        exact Option.noConfusion h
      | some var =>
        rw [hsel] at h
        dsimp only at h
        obtain ⟨res, a2, d2⟩ := r
        have hvar : lookupA a var = none := (select_some_spec hsel).2
        have hts := tryValues_state (fun d a r hh => ih hh) hvar h
        exact ⟨hts.1, hts.2.1, fun m hm =>
          ⟨(hts.2.2 m hm).1, le_trans (Nat.le_succ _) (hts.2.2 m hm).2⟩⟩

instance : DecidableEq (Option Assign × Assign × Domains) :=
  @instDecidableEqProd _ _ inferInstance inferInstance

/-- C9: backtrack never mutates the domain store, and a failed call leaves
the assignment dict exactly as it found it: whenever backtrack returns, the
final domain store equals the store at entry, and whenever the returned
result is None, the final assignment holds exactly the entries it held at
entry. -/
theorem backtrack_frame (cw : Crossword) (fuel : Nat) (d : Domains)
    (a : Assign) (res : Option Assign) (a2 : Assign) (d2 : Domains)
    (h : backtrack cw fuel d a = some (res, a2, d2)) :
    d2 = d ∧ (res = none → a2 = a) := by
  have hs := backtrack_state h
  exact ⟨hs.1, hs.2.1⟩

theorem backtrack_frame_witness :
    dF = dF ∧ ((none : Option Assign) = none → [(vC, wAAA)] = [(vC, wAAA)]) :=
  backtrack_frame cwF 10 dF [(vC, wAAA)] none [(vC, wAAA)] dF (by decide)

/-- Keys of the assignment are distinct and belong to the puzzle. -/
def GoodAssign (cw : Crossword) (a : Assign) : Prop :=
  (a.map Prod.fst).Nodup ∧ ∀ p ∈ a, p.1 ∈ cw.vars

theorem goodAssign_nil (cw : Crossword) : GoodAssign cw [] :=
  ⟨List.nodup_nil, fun p hp => absurd hp (List.not_mem_nil p)⟩

theorem goodAssign_snoc {cw : Crossword} {a : Assign} {var : Variable}
    {w : Word} (hg : GoodAssign cw a) (hvar : lookupA a var = none)
    (hmem : var ∈ cw.vars) : GoodAssign cw (a ++ [(var, w)]) := by
  constructor
  · rw [List.map_append]
    refine List.Nodup.append hg.1 (by simp) ?_
    intro x hx1 hx2
    simp only [List.map_cons, List.map_nil, List.mem_singleton] at hx2
    subst hx2
    obtain ⟨p, hp, hpx⟩ := List.mem_map.mp hx1
    exact lookupA_eq_none.mp hvar p hp hpx
  · intro p hp
    rcases List.mem_append.mp hp with h1 | h1
    · exact hg.2 p h1
    · rw [List.mem_singleton.mp h1]
      exact hmem

theorem consistent_nil (cw : Crossword) : consistent cw [] = true := rfl

theorem tryValues_sound {cw : Crossword} {fuel : Nat}
    (IH : ∀ d a m a2 d2,
      backtrack cw fuel d a = some (some m, a2, d2) → GoodAssign cw a →
      assignment_complete cw m = true ∧
      (consistent cw m = true ∨ m = a) ∧ GoodAssign cw m)
    {d : Domains} {a : Assign} {var : Variable}
    (hvar : lookupA a var = none) (hmem : var ∈ cw.vars)
    (hg : GoodAssign cw a) :
    ∀ {vals : List Word} {m : Assign} {a2 : Assign} {d2 : Domains},
      tryValuesWith cw (backtrack cw fuel) d a var vals =
        some (some m, a2, d2) →
      assignment_complete cw m = true ∧ consistent cw m = true ∧
      GoodAssign cw m := by
  intro vals
  induction vals with
  | nil =>
    intro m a2 d2 h
    rw [tryValuesWith_nil] at h
    simp at h
  | cons w rest ih =>
    intro m a2 d2 h
    rw [tryValuesWith_cons] at h
    by_cases hcons : consistent cw (a ++ [(var, w)])
    · rw [if_pos hcons] at h
      cases hbt : backtrack cw fuel d (a ++ [(var, w)]) with
      | none =>
        rw [hbt] at h
        exact Option.noConfusion h
      | some r =>
        obtain ⟨r1, ra, rd⟩ := r
        rw [hbt] at h
        dsimp only at h
        by_cases htr : truthy r1
        · rw [if_pos htr] at h
          simp only [Option.some.injEq, Prod.mk.injEq] at h
          obtain ⟨h1, h2, h3⟩ := h
          subst h2
          subst h3
          cases r1 with
          | none => exact Option.noConfusion h1
          | some m0 =>
            have hm0 : m0 = m := Option.some.inj h1
            subst hm0
            have hIH := IH _ _ _ _ _ hbt
              (goodAssign_snoc hg hvar hmem)
            refine ⟨hIH.1, ?_, hIH.2.2⟩
            rcases hIH.2.1 with hc | hc
            · exact hc
            · rw [hc]
              exact hcons
        · rw [if_neg htr] at h
          cases r1 with
          | none =>
            have hst := backtrack_state hbt
            have hra : ra = a ++ [(var, w)] := hst.2.1 rfl
            have hrd : rd = d := hst.1
            rw [hra, hrd, popVar_snoc hvar] at h
            exact ih h
          | some m0 =>
            have hst := backtrack_state hbt
            have hm2 := hst.2.2 m0 rfl
            have hmnil : m0 = [] := by
              have h5 : ¬ (m0.isEmpty = false) :=
                fun hf => htr (by simp [truthy, hf])
              cases he : m0.isEmpty with
              | false => exact absurd he h5
              | true => exact List.isEmpty_iff.mp he
            have hlen := hm2.2
            rw [hmnil, List.length_append] at hlen
            simp at hlen
    · rw [if_neg hcons, popVar_snoc hvar] at h
      exact ih h

theorem backtrack_sound {cw : Crossword} :
    ∀ {fuel : Nat} {d : Domains} {a : Assign} {m a2 : Assign} {d2 : Domains},
      backtrack cw fuel d a = some (some m, a2, d2) → GoodAssign cw a →
      assignment_complete cw m = true ∧
      (consistent cw m = true ∨ m = a) ∧ GoodAssign cw m := by
  intro fuel
  induction fuel with
  | zero =>
    intro d a m a2 d2 h hg
    rw [backtrack_zero] at h
    exact Option.noConfusion h
  | succ n ih =>
    intro d a m a2 d2 h hg
    rw [backtrack_succ] at h
    by_cases hcomp : assignment_complete cw a
    · rw [if_pos hcomp] at h
      simp only [Option.some.injEq, Prod.mk.injEq] at h
      obtain ⟨h1, h2, h3⟩ := h
      have hma : m = a := h1.symm
      subst hma
      exact ⟨hcomp, Or.inr rfl, hg⟩
    · rw [if_neg hcomp] at h
      cases hsel : select_unassigned_variable cw d a with
      | none =>
        rw [hsel] at h
        exact Option.noConfusion h
      | some var =>
        rw [hsel] at h
        dsimp only at h
        have hspec := select_some_spec hsel
        have := tryValues_sound (fun d a m a2 d2 hh hgg => ih hh hgg)
          hspec.2 hspec.1 hg h
        exact ⟨this.1, Or.inl this.2.1, this.2.2⟩

/-- C1: soundness of the solver.  Every non-None result of solve, and every
success of backtrack started from the empty assignment, is a complete
assignment (every puzzle variable is assigned) that passes the consistency
checker in full; in particular the assigned words are pairwise distinct and
each word's length equals its variable's required length. -/
theorem solver_sound (cw : Crossword) :
    (∀ fuel m, solve cw fuel = some (some m) →
      assignment_complete cw m = true ∧ consistent cw m = true ∧
      (m.map (fun p => p.2)).Nodup ∧
      (∀ p ∈ m, p.2.length = p.1.length)) ∧
    (∀ fuel d m a2 d2, backtrack cw fuel d [] = some (some m, a2, d2) →
      assignment_complete cw m = true ∧ consistent cw m = true ∧
      (m.map (fun p => p.2)).Nodup ∧
      (∀ p ∈ m, p.2.length = p.1.length)) := by
  have hbt : ∀ fuel d m a2 d2, backtrack cw fuel d [] = some (some m, a2, d2) →
      assignment_complete cw m = true ∧ consistent cw m = true ∧
      (m.map (fun p => p.2)).Nodup ∧
      (∀ p ∈ m, p.2.length = p.1.length) := by
    intro fuel d m a2 d2 h
    have hs := backtrack_sound h (goodAssign_nil cw)
    have hcons : consistent cw m = true := by
      rcases hs.2.1 with hc | hc
      · exact hc
      · rw [hc]
        exact consistent_nil cw
    have hspec := (consistent_iff cw m).mp hcons
    exact ⟨hs.1, hcons, hspec.1, hspec.2.1⟩
  refine ⟨?_, hbt⟩
  intro fuel m h
  simp only [solve] at h
  cases hac : ac3 cw fuel (enforce_node_consistency (initialDomains cw)) none
      with
  | none =>
    rw [hac] at h
    exact Option.noConfusion h
  | some r =>
    obtain ⟨b, d2⟩ := r
    rw [hac] at h
    dsimp only at h
    cases hb : backtrack cw fuel d2 [] with
    | none =>
      rw [hb] at h
      exact Option.noConfusion h
    | some r2 =>
      obtain ⟨res, a2, d3⟩ := r2
      rw [hb] at h
      dsimp only at h
      have hres : res = some m := Option.some.inj h
      rw [hres] at hb
      exact hbt fuel d2 m a2 d3 hb

theorem solver_sound_witness :
    assignment_complete cwA [(vB, wADD), (vA, wBAD)] = true ∧
    consistent cwA [(vB, wADD), (vA, wBAD)] = true ∧
    (([(vB, wADD), (vA, wBAD)] : Assign).map (fun p => p.2)).Nodup ∧
    (∀ p ∈ ([(vB, wADD), (vA, wBAD)] : Assign), p.2.length = p.1.length) :=
  (solver_sound cwA).1 10 [(vB, wADD), (vA, wBAD)] (by decide)

theorem consistent_contract_witness :
    consistent cwA [(vA, wBAD), (vB, wADD)] = true ↔
      ((([(vA, wBAD), (vB, wADD)] : Assign).map (fun p => p.2)).Nodup ∧
       (∀ p ∈ ([(vA, wBAD), (vB, wADD)] : Assign),
          p.2.length = p.1.length) ∧
       (∀ p ∈ ([(vA, wBAD), (vB, wADD)] : Assign),
        ∀ q ∈ ([(vA, wBAD), (vB, wADD)] : Assign),
         ∀ i j, cwA.overlaps p.1 q.1 = some (i, j) →
           p.2.getD i ' ' = q.2.getD j ' ')) :=
  consistent_contract cwA [(vA, wBAD), (vB, wADD)] (by decide) (by decide)
    (by decide)

theorem domains_shrink_witness :
    wADD ∈ getDomain dA vB ∧ wBBB ∈ getDomain dF vD :=
  ⟨domains_shrink.2.2 cwA 10 dA none true d2A (by decide) vB wADD (by decide),
   domains_shrink.2.1 cwF dF vC vD vD wBBB (by decide)⟩

/-! ### Completeness machinery -/

/-- A total solution function: a word for every variable, drawn from the
vocabulary, of the right length, pairwise distinct across variables, and
agreeing at every overlap. -/
def SolutionFn (cw : Crossword) (f : Variable → Word) : Prop :=
  (∀ v ∈ cw.vars, f v ∈ cw.words ∧ (f v).length = v.length) ∧
  (∀ u ∈ cw.vars, ∀ v ∈ cw.vars, ¬ u = v → ¬ f u = f v) ∧
  (∀ u ∈ cw.vars, ∀ v ∈ cw.vars, ∀ i j, cw.overlaps u v = some (i, j) →
    (f u).getD i ' ' = (f v).getD j ' ')

/-- Every variable's chosen word survives in its domain. -/
def respects (cw : Crossword) (d : Domains) (f : Variable → Word) : Prop :=
  ∀ v ∈ cw.vars, f v ∈ getDomain d v

/-- The partial assignment agrees with the solution function. -/
def agrees (a : Assign) (f : Variable → Word) : Prop :=
  ∀ p ∈ a, f p.1 = p.2

theorem solutionFn_of_assign {cw : Crossword} {s : Assign} (hwf : cw.WF)
    (hcomp : assignment_complete cw s = true)
    (hcons : consistent cw s = true)
    (hwords : ∀ p ∈ s, p.2 ∈ cw.words) :
    SolutionFn cw (fun v => (lookupA s v).getD []) := by
  have hspec := (consistent_iff cw s).mp hcons
  have hlook : ∀ v ∈ cw.vars, ∃ w, lookupA s v = some w := by
    intro v hv
    unfold assignment_complete at hcomp
    rw [List.all_eq_true] at hcomp
    have := hcomp v hv
    cases he : lookupA s v with
    | none =>
      rw [he] at this
      simp at this
    | some w => exact ⟨w, rfl⟩
  refine ⟨?_, ?_, ?_⟩
  · intro v hv
    obtain ⟨w, hw⟩ := hlook v hv
    dsimp only
    rw [hw]
    have hmem := lookupA_mem hw
    exact ⟨hwords (v, w) hmem, hspec.2.1 (v, w) hmem⟩
  · intro u hu v hv hne heq
    obtain ⟨wu, hwu⟩ := hlook u hu
    obtain ⟨wv, hwv⟩ := hlook v hv
    dsimp only at heq
    rw [hwu, hwv] at heq
    have h1 := List.inj_on_of_nodup_map hspec.1 (lookupA_mem hwu)
      (lookupA_mem hwv) heq
    exact hne (congrArg Prod.fst h1)
  · intro u hu v hv i j hij
    obtain ⟨wu, hwu⟩ := hlook u hu
    obtain ⟨wv, hwv⟩ := hlook v hv
    dsimp only
    rw [hwu, hwv]
    have hvu : ¬ v = u := by
      intro he
      rw [he] at hij
      rw [hwf.2.1 u hu] at hij
      exact Option.noConfusion hij
    have hn : v ∈ cw.neighbors u :=
      mem_neighbors.mpr ⟨hv, hvu, by rw [hij]; rfl⟩
    exact hspec.2.2 (u, wu) (lookupA_mem hwu) v hn wv hwv i j hij

theorem getDomain_const_map {l : List Variable} {v : Variable}
    {ws : List Word} (hv : v ∈ l) :
    getDomain (l.map (fun u => (u, ws))) v = ws := by
  induction l with
  | nil => simp at hv
  | cons u l ih =>
    simp only [List.map_cons, getDomain]
    by_cases hu : u = v
    · rw [if_pos hu]
    · rw [if_neg hu]
      rcases List.mem_cons.mp hv with h1 | h1
      · exact absurd h1.symm hu
      · exact ih h1

theorem respects_initial {cw : Crossword} {f : Variable → Word}
    (h : ∀ v ∈ cw.vars, f v ∈ cw.words) :
    respects cw (initialDomains cw) f := by
  intro v hv
  unfold initialDomains
  rw [getDomain_const_map hv]
  exact h v hv

theorem respects_enforce {cw : Crossword} {d : Domains} {f : Variable → Word}
    (hr : respects cw d f) (hlen : ∀ v ∈ cw.vars, (f v).length = v.length) :
    respects cw (enforce_node_consistency d) f := by
  intro v hv
  rw [getDomain_enforce, List.mem_filter]
  exact ⟨hr v hv, decide_eq_true (hlen v hv)⟩

theorem respects_revise {cw : Crossword} {d : Domains} {f : Variable → Word}
    {x y : Variable} (hsol : SolutionFn cw f) (hy : y ∈ cw.vars)
    (hr : respects cw d f) : respects cw (revise cw d x y).2 f := by
  intro v hv
  cases hov : cw.overlaps x y with
  | none =>
    rw [revise_of_overlap_none hov]
    exact hr v hv
  | some ij =>
    obtain ⟨i, j⟩ := ij
    rw [revise_getDomain_of_overlap hov]
    by_cases hvx : v = x
    · rw [if_pos hvx]
      subst hvx
      rw [List.mem_filter]
      refine ⟨hr v hv, ?_⟩
      rw [hasSupport_iff]
      exact ⟨f y, hr y hy, hsol.2.2 v hv y hy i j hov⟩
    · rw [if_neg hvx]
      exact hr v hv

theorem respects_ac3Loop {cw : Crossword} {f : Variable → Word}
    (hsol : SolutionFn cw f) :
    ∀ {fuel : Nat} {q : List (Variable × Variable)} {d : Domains} {b : Bool}
      {d' : Domains},
      (∀ e ∈ q, e.1 ∈ cw.vars ∧ e.2 ∈ cw.vars) → respects cw d f →
      ac3Loop cw fuel q d = some (b, d') → respects cw d' f := by
  intro fuel
  induction fuel with
  | zero =>
    intro q d b d' hq hr h
    rw [ac3Loop_zero] at h
    exact Option.noConfusion h
  | succ n ih =>
    intro q d b d' hq hr h
    cases q with
    | nil =>
      rw [ac3Loop_nil] at h
      simp only [Option.some.injEq, Prod.mk.injEq] at h
      obtain ⟨-, rfl⟩ := h
      exact hr
    | cons p rest =>
      obtain ⟨x, y⟩ := p
      have hxy := hq (x, y) (List.mem_cons_self _ _)
      have hr1 : respects cw (revise cw d x y).2 f :=
        respects_revise hsol hxy.2 hr
      rw [ac3Loop_cons] at h
      by_cases hrev : (revise cw d x y).1
      · by_cases hemp : (getDomain (revise cw d x y).2 x).isEmpty
        · rw [if_pos hrev, if_pos hemp] at h
          simp only [Option.some.injEq, Prod.mk.injEq] at h
          obtain ⟨-, rfl⟩ := h
          exact hr1
        · rw [if_pos hrev, if_neg hemp] at h
          refine ih ?_ hr1 h
          intro e he
          rcases enqueueArcs_mem_inv he with h1 | h1
          · exact hq e (List.mem_cons_of_mem _ h1)
          · obtain ⟨z, hz, rfl⟩ := h1
            exact ⟨neighbors_subset_vars hz, hxy.1⟩
      · rw [if_neg hrev] at h
        rw [revise_false_snd (Bool.not_eq_true _ ▸ hrev)] at h
        exact ih (fun e he => hq e (List.mem_cons_of_mem _ he)) hr h

theorem defaultQueue_endpoints {cw : Crossword} :
    ∀ e ∈ defaultQueue cw, e.1 ∈ cw.vars ∧ e.2 ∈ cw.vars := by
  intro e he
  unfold defaultQueue at he
  rw [List.mem_flatMap] at he
  obtain ⟨v1, hv1, he2⟩ := he
  rw [List.mem_map] at he2
  obtain ⟨v2, hv2, rfl⟩ := he2
  exact ⟨hv1, neighbors_subset_vars hv2⟩

theorem consistent_of_agrees {cw : Crossword} {a : Assign}
    {f : Variable → Word} (hsol : SolutionFn cw f) (hg : GoodAssign cw a)
    (ha : agrees a f) : consistent cw a = true := by
  rw [consistent_iff]
  refine ⟨?_, ?_, ?_⟩
  · have hmap : a.map (fun p => p.2) = (a.map Prod.fst).map f := by
      rw [List.map_map]
      apply List.map_congr_left
      intro p hp
      exact (ha p hp).symm
    rw [hmap]
    refine List.Nodup.map_on ?_ hg.1
    intro x hx y hy hf
    by_contra hne
    obtain ⟨p, hp, rfl⟩ := List.mem_map.mp hx
    obtain ⟨q, hq, rfl⟩ := List.mem_map.mp hy
    exact hsol.2.1 p.1 (hg.2 p hp) q.1 (hg.2 q hq) hne hf
  · intro p hp
    rw [← ha p hp]
    exact (hsol.1 p.1 (hg.2 p hp)).2
  · intro p hp n hn wn hwn i j hij
    have e1 : f p.1 = p.2 := ha p hp
    have e2 : f n = wn := ha (n, wn) (lookupA_mem hwn)
    rw [← e1, ← e2]
    exact hsol.2.2 p.1 (hg.2 p hp) n (neighbors_subset_vars hn) i j hij

theorem length_filter_lt_of_mem_not {α : Type} {l : List α} {p : α → Bool}
    {x : α} (hx : x ∈ l) (hpx : p x = false) :
    (l.filter p).length < l.length := by
  induction l with
  | nil => simp at hx
  | cons a l ih =>
    rw [List.filter_cons]
    rcases List.mem_cons.mp hx with h1 | h1
    · subst h1
      rw [hpx]
      simp only [Bool.false_eq_true, if_false, List.length_cons]
      exact Nat.lt_succ_of_le (List.length_filter_le _ _)
    · by_cases hpa : p a
      · rw [if_pos hpa]
        simpa using ih h1
      · rw [if_neg hpa]
        exact Nat.lt_succ_of_lt (ih h1)

/-- The number of puzzle variables not yet assigned. -/
def unassignedCount (cw : Crossword) (a : Assign) : Nat :=
  (cw.vars.filter (fun v => (lookupA a v).isNone)).length

theorem unassignedCount_snoc {cw : Crossword} {a : Assign} {var : Variable}
    {w : Word} (hvar : lookupA a var = none) (hmem : var ∈ cw.vars) :
    unassignedCount cw (a ++ [(var, w)]) < unassignedCount cw a := by
  unfold unassignedCount
  have hs : cw.vars.filter (fun v => (lookupA (a ++ [(var, w)]) v).isNone) =
      (cw.vars.filter (fun v => (lookupA a v).isNone)).filter
        (fun v => decide (¬ var = v)) := by
    rw [List.filter_filter]
    apply List.filter_congr
    intro v _
    cases hl : lookupA a v with
    | some w2 =>
      rw [lookupA_append_left hl]
      simp
    | none =>
      rw [lookupA_append_right hl]
      by_cases hv : var = v
      · subst hv
        simp [lookupA]
      · simp [lookupA, hv]
  rw [hs]
  apply length_filter_lt_of_mem_not
  · rw [List.mem_filter]
    refine ⟨hmem, ?_⟩
    rw [hvar]
    rfl
  · simp

theorem tryValues_total {cw : Crossword} {fuel : Nat}
    (IH : ∀ {d : Domains} {a : Assign}, unassignedCount cw a < fuel →
      ¬ backtrack cw fuel d a = none)
    {d : Domains} {a : Assign} {var : Variable}
    (hvar : lookupA a var = none) (hmem : var ∈ cw.vars)
    (hcnt : unassignedCount cw a < fuel + 1) :
    ∀ vals, ¬ tryValuesWith cw (backtrack cw fuel) d a var vals = none := by
  intro vals
  induction vals with
  | nil =>
    rw [tryValuesWith_nil]
    simp
  | cons w rest ih =>
    rw [tryValuesWith_cons]
    by_cases hcons : consistent cw (a ++ [(var, w)])
    · rw [if_pos hcons]
      cases hbt : backtrack cw fuel d (a ++ [(var, w)]) with
      | none =>
        exact absurd hbt (IH (lt_of_lt_of_le (unassignedCount_snoc hvar hmem)
          (Nat.lt_succ_iff.mp hcnt)))
      | some r =>
        obtain ⟨r1, ra, rd⟩ := r
        dsimp only
        by_cases htr : truthy r1
        · rw [if_pos htr]
          simp
        · rw [if_neg htr]
          cases r1 with
          | none =>
            have hst := backtrack_state hbt
            have h1 : rd = d := hst.1
            have h2 : ra = a ++ [(var, w)] := hst.2.1 rfl
            rw [h1, h2, popVar_snoc hvar]
            exact ih
          | some m =>
            have hst := backtrack_state hbt
            have hm2 := hst.2.2 m rfl
            have hmnil : m = [] := by
              have h5 : ¬ (m.isEmpty = false) :=
                fun hf => htr (by simp [truthy, hf])
              cases he : m.isEmpty with
              | false => exact absurd he h5
              | true => exact List.isEmpty_iff.mp he
            have hlen := hm2.2
            rw [hmnil, List.length_append] at hlen
            simp at hlen
    · rw [if_neg hcons, popVar_snoc hvar]
      exact ih

theorem backtrack_total {cw : Crossword} :
    ∀ {fuel : Nat} {d : Domains} {a : Assign},
      unassignedCount cw a < fuel → ¬ backtrack cw fuel d a = none := by
  intro fuel
  induction fuel with
  | zero =>
    intro d a hcnt
    exact absurd hcnt (Nat.not_lt_zero _)
  | succ n ih =>
    intro d a hcnt
    rw [backtrack_succ]
    by_cases hcomp : assignment_complete cw a
    · rw [if_pos hcomp]
      simp
    · rw [if_neg hcomp]
      obtain ⟨var, hsel⟩ :=
        select_isSome_of_not_complete (Bool.not_eq_true _ ▸ hcomp)
      rw [hsel]
      dsimp only
      have hspec := select_some_spec hsel
      exact tryValues_total (fun hlt => ih hlt) hspec.2 hspec.1 hcnt _

theorem tryValues_complete {cw : Crossword} {fuel : Nat}
    {f : Variable → Word} (hsol : SolutionFn cw f)
    (IHc : ∀ {d : Domains} {a : Assign}, unassignedCount cw a < fuel →
      respects cw d f → GoodAssign cw a → agrees a f →
      ∃ m a2 d2, backtrack cw fuel d a = some (some m, a2, d2))
    {d : Domains} {a : Assign} {var : Variable}
    (hvar : lookupA a var = none) (hmem : var ∈ cw.vars)
    (hcnt : unassignedCount cw a < fuel + 1)
    (hresp : respects cw d f) (hg : GoodAssign cw a) (ha : agrees a f) :
    ∀ vals, f var ∈ vals →
      ∃ m a2 d2, tryValuesWith cw (backtrack cw fuel) d a var vals =
        some (some m, a2, d2) := by
  intro vals
  induction vals with
  | nil =>
    intro hin
    simp at hin
  | cons w rest ih =>
    intro hin
    rw [tryValuesWith_cons]
    by_cases hcons : consistent cw (a ++ [(var, w)])
    · rw [if_pos hcons]
      cases hbt : backtrack cw fuel d (a ++ [(var, w)]) with
      | none =>
        exact absurd hbt (backtrack_total
          (lt_of_lt_of_le (unassignedCount_snoc hvar hmem)
            (Nat.lt_succ_iff.mp hcnt)))
      | some r =>
        obtain ⟨r1, ra, rd⟩ := r
        dsimp only
        cases r1 with
        | some m =>
          have hst := backtrack_state hbt
          have hm2 := hst.2.2 m rfl
          have hmne : ¬ m.isEmpty = true := by
            intro he
            have hlen := hm2.2
            rw [List.isEmpty_iff.mp he, List.length_append] at hlen
            simp at hlen
          have htr : truthy (some m) = true := by
            have hfalse : m.isEmpty = false := by
              cases he : m.isEmpty with
              | true => exact absurd he hmne
              | false => rfl
            simp [truthy, hfalse]
          rw [if_pos htr]
          exact ⟨m, ra, rd, rfl⟩
        | none =>
          have htr : ¬ truthy none = true := by simp [truthy]
          rw [if_neg htr]
          by_cases hw : w = f var
          · exfalso
            have ha1 : agrees (a ++ [(var, w)]) f := by
              intro p hp
              rcases List.mem_append.mp hp with h1 | h1
              · exact ha p h1
              · rw [List.mem_singleton.mp h1]
                exact hw.symm
            obtain ⟨m, a2x, d2x, hbt2⟩ := IHc
              (lt_of_lt_of_le (unassignedCount_snoc hvar hmem)
                (Nat.lt_succ_iff.mp hcnt))
              hresp (goodAssign_snoc hg hvar hmem) ha1
            rw [hbt] at hbt2
            simp at hbt2
          · have hst := backtrack_state hbt
            have h1 : rd = d := hst.1
            have h2 : ra = a ++ [(var, w)] := hst.2.1 rfl
            rw [h1, h2, popVar_snoc hvar]
            apply ih
            rcases List.mem_cons.mp hin with h3 | h3
            · exact absurd h3.symm hw
            · exact h3
    · rw [if_neg hcons, popVar_snoc hvar]
      apply ih
      have hw : ¬ w = f var := by
        intro he
        have ha1 : agrees (a ++ [(var, w)]) f := by
          intro p hp
          rcases List.mem_append.mp hp with h1 | h1
          · exact ha p h1
          · rw [List.mem_singleton.mp h1]
            exact he.symm
        exact absurd (consistent_of_agrees hsol
          (goodAssign_snoc hg hvar hmem) ha1) hcons
      rcases List.mem_cons.mp hin with h3 | h3
      · exact absurd h3.symm hw
      · exact h3

theorem backtrack_complete {cw : Crossword} {f : Variable → Word}
    (hsol : SolutionFn cw f) :
    ∀ {fuel : Nat} {d : Domains} {a : Assign},
      unassignedCount cw a < fuel → respects cw d f → GoodAssign cw a →
      agrees a f →
      ∃ m a2 d2, backtrack cw fuel d a = some (some m, a2, d2) := by
  intro fuel
  induction fuel with
  | zero =>
    intro d a hcnt
    exact absurd hcnt (Nat.not_lt_zero _)
  | succ n ih =>
    intro d a hcnt hresp hg ha
    rw [backtrack_succ]
    by_cases hcomp : assignment_complete cw a
    · rw [if_pos hcomp]
      exact ⟨a, a, d, rfl⟩
    · rw [if_neg hcomp]
      obtain ⟨var, hsel⟩ :=
        select_isSome_of_not_complete (Bool.not_eq_true _ ▸ hcomp)
      rw [hsel]
      dsimp only
      have hspec := select_some_spec hsel
      have hfv : f var ∈ order_domain_values cw d var a :=
        (order_domain_values_spec cw d var a).1.mem_iff.mpr
          (hresp var hspec.1)
      exact tryValues_complete hsol (fun h1 h2 h3 h4 => ih h1 h2 h3 h4)
        hspec.2 hspec.1 hcnt hresp hg ha _ hfv

/-! ### Termination and fuel monotonicity -/

theorem revise_true_snd {cw : Crossword} {d : Domains} {x y : Variable}
    {i j : Nat} (hov : cw.overlaps x y = some (i, j))
    (hr : (revise cw d x y).1 = true) :
    (revise cw d x y).2 =
      setDomain d x ((getDomain d x).filter
        (fun w1 => hasSupport i j (getDomain d y) w1)) ∧
    ¬ ((getDomain d x).filter
        (fun w1 => !hasSupport i j (getDomain d y) w1)) = [] := by
  unfold revise at hr ⊢
  rw [hov] at hr ⊢
  dsimp only at hr ⊢
  by_cases he : ((getDomain d x).filter
      (fun w1 => !hasSupport i j (getDomain d y) w1)).isEmpty
  · rw [if_pos he] at hr
    simp at hr
  · rw [if_neg he]
    exact ⟨rfl, fun hnil => he (by rw [hnil]; rfl)⟩

def sizeSum (d : Domains) : Nat := (d.map (fun p => p.2.length)).sum

theorem sizeSum_setDomain {d : Domains} {x : Variable} {ws : List Word}
    (hnk : (d.map Prod.fst).Nodup) (hmem : ∃ p ∈ d, p.1 = x) :
    sizeSum (setDomain d x ws) + (getDomain d x).length =
      sizeSum d + ws.length := by
  induction d with
  | nil =>
    obtain ⟨q, hq, -⟩ := hmem
    simp at hq
  | cons p rest ih =>
    obtain ⟨u, us⟩ := p
    simp only [List.map_cons, List.nodup_cons] at hnk
    by_cases hu : u = x
    · subst hu
      rw [setDomain_cons_self]
      have hrest : setDomain rest u ws = rest := by
        apply setDomain_of_not_mem
        intro q hq hq1
        exact hnk.1 (List.mem_map.mpr ⟨q, hq, hq1⟩)
      rw [hrest]
      simp [sizeSum, getDomain]
      omega
    · rw [setDomain_cons_ne hu]
      have hmem2 : ∃ p ∈ rest, p.1 = x := by
        obtain ⟨q, hq, hqx⟩ := hmem
        rcases List.mem_cons.mp hq with h1 | h1
        · rw [h1] at hqx
          exact absurd hqx hu
        · exact ⟨q, h1, hqx⟩
      have hih := ih hnk.2 hmem2
      simp only [sizeSum, List.map_cons, List.sum_cons, getDomain,
        if_neg hu] at hih ⊢
      omega

theorem revise_true_sizeSum {cw : Crossword} {d : Domains} {x y : Variable}
    (hnk : (d.map Prod.fst).Nodup) (hr : (revise cw d x y).1 = true) :
    sizeSum (revise cw d x y).2 < sizeSum d := by
  obtain ⟨i, j, hov⟩ := revise_true_overlap hr
  obtain ⟨hsnd, hne⟩ := revise_true_snd hov hr
  rw [hsnd]
  have hkeep : ((getDomain d x).filter
      (fun w1 => hasSupport i j (getDomain d y) w1)).length <
      (getDomain d x).length := by
    have hpart := List.length_eq_length_filter_add (l := getDomain d x)
      (fun w1 => hasSupport i j (getDomain d y) w1)
    have hpos : 0 < ((getDomain d x).filter
        (fun w1 => !hasSupport i j (getDomain d y) w1)).length :=
      List.length_pos.mpr hne
    omega
  have hmem : ∃ p ∈ d, p.1 = x := by
    apply exists_key_of_getDomain_ne_nil
    intro hnil
    apply hne
    rw [hnil]
    rfl
  have hss := @sizeSum_setDomain d x
    ((getDomain d x).filter (fun w1 => hasSupport i j (getDomain d y) w1))
    hnk hmem
  omega

theorem ac3Loop_total {cw : Crossword} :
    ∀ (n : Nat) (d : Domains), sizeSum d ≤ n → (d.map Prod.fst).Nodup →
      ∀ (q : List (Variable × Variable)),
        ∃ fuel r, ac3Loop cw fuel q d = some r := by
  intro n
  induction n with
  | zero =>
    intro d hle hnk q
    induction q with
    | nil => exact ⟨1, (true, d), rfl⟩
    | cons p rest ihq =>
      obtain ⟨x, y⟩ := p
      by_cases hr : (revise cw d x y).1
      · have := revise_true_sizeSum hnk hr
        omega
      · obtain ⟨fuel, r, hf⟩ := ihq
        refine ⟨fuel + 1, r, ?_⟩
        rw [ac3Loop_cons, if_neg hr,
          revise_false_snd (Bool.not_eq_true _ ▸ hr)]
        exact hf
  | succ m ihn =>
    intro d hle hnk q
    induction q with
    | nil => exact ⟨1, (true, d), rfl⟩
    | cons p rest ihq =>
      obtain ⟨x, y⟩ := p
      by_cases hr : (revise cw d x y).1
      · by_cases hemp : (getDomain (revise cw d x y).2 x).isEmpty
        · refine ⟨1, (false, (revise cw d x y).2), ?_⟩
          rw [ac3Loop_cons, if_pos hr, if_pos hemp]
        · have hlt := revise_true_sizeSum hnk hr
          have hnk2 : ((revise cw d x y).2.map Prod.fst).Nodup := by
            rw [revise_keys]
            exact hnk
          obtain ⟨fuel, r, hf⟩ := ihn (revise cw d x y).2 (by omega) hnk2
            (enqueueArcs x y (cw.neighbors x) rest)
          refine ⟨fuel + 1, r, ?_⟩
          rw [ac3Loop_cons, if_pos hr, if_neg hemp]
          exact hf
      · obtain ⟨fuel, r, hf⟩ := ihq
        refine ⟨fuel + 1, r, ?_⟩
        rw [ac3Loop_cons, if_neg hr,
          revise_false_snd (Bool.not_eq_true _ ▸ hr)]
        exact hf

theorem ac3Loop_mono {cw : Crossword} :
    ∀ {f1 f2 : Nat} {q : List (Variable × Variable)} {d : Domains}
      {r : Bool × Domains},
      ac3Loop cw f1 q d = some r → f1 ≤ f2 → ac3Loop cw f2 q d = some r := by
  intro f1
  induction f1 with
  | zero =>
    intro f2 q d r h
    rw [ac3Loop_zero] at h
    exact absurd h (by simp)
  | succ n ih =>
    intro f2 q d r h hle
    obtain ⟨m, rfl⟩ : ∃ m, f2 = m + 1 := ⟨f2 - 1, by omega⟩
    have hnm : n ≤ m := by omega
    cases q with
    | nil =>
      rw [ac3Loop_nil] at h ⊢
      exact h
    | cons p rest =>
      obtain ⟨x, y⟩ := p
      rw [ac3Loop_cons] at h ⊢
      by_cases hr : (revise cw d x y).1
      · rw [if_pos hr] at h ⊢
        by_cases hemp : (getDomain (revise cw d x y).2 x).isEmpty
        · rw [if_pos hemp] at h ⊢
          exact h
        · rw [if_neg hemp] at h ⊢
          exact ih h hnm
      · rw [if_neg hr] at h ⊢
        exact ih h hnm

theorem tryValues_mono {cw : Crossword} {n m : Nat}
    (ihb : ∀ {d : Domains} {a : Assign} {r}, backtrack cw n d a = some r →
      backtrack cw m d a = some r) :
    ∀ {vals : List Word} {d : Domains} {a : Assign} {var : Variable} {r},
      tryValuesWith cw (backtrack cw n) d a var vals = some r →
      tryValuesWith cw (backtrack cw m) d a var vals = some r := by
  intro vals
  induction vals with
  | nil =>
    intro d a var r h
    rw [tryValuesWith_nil] at h ⊢
    exact h
  | cons w rest ih =>
    intro d a var r h
    rw [tryValuesWith_cons] at h ⊢
    by_cases hcons : consistent cw (a ++ [(var, w)])
    · rw [if_pos hcons] at h ⊢
      cases hbt : backtrack cw n d (a ++ [(var, w)]) with
      | none =>
        rw [hbt] at h
        exact absurd h (by simp)
      | some rr =>
        rw [hbt] at h
        rw [ihb hbt]
        obtain ⟨r1, ra, rd⟩ := rr
        dsimp only at h ⊢
        by_cases htr : truthy r1
        · rw [if_pos htr] at h ⊢
          exact h
        · rw [if_neg htr] at h ⊢
          exact ih h
    · rw [if_neg hcons] at h ⊢
      exact ih h

theorem backtrack_mono {cw : Crossword} :
    ∀ {f1 f2 : Nat} {d : Domains} {a : Assign} {r},
      backtrack cw f1 d a = some r → f1 ≤ f2 →
      backtrack cw f2 d a = some r := by
  intro f1
  induction f1 with
  | zero =>
    intro f2 d a r h
    rw [backtrack_zero] at h
    exact absurd h (by simp)
  | succ n ih =>
    intro f2 d a r h hle
    obtain ⟨m, rfl⟩ : ∃ m, f2 = m + 1 := ⟨f2 - 1, by omega⟩
    have hnm : n ≤ m := by omega
    rw [backtrack_succ] at h ⊢
    by_cases hcomp : assignment_complete cw a
    · rw [if_pos hcomp] at h ⊢
      exact h
    · rw [if_neg hcomp] at h ⊢
      cases hsel : select_unassigned_variable cw d a with
      | none =>
        rw [hsel] at h
        exact absurd h (by simp)
      | some var =>
        rw [hsel] at h
        dsimp only at h ⊢
        exact tryValues_mono (fun hh => ih hh hnm) h

theorem keys_enforce (d : Domains) :
    (enforce_node_consistency d).map Prod.fst = d.map Prod.fst := by
  unfold enforce_node_consistency
  rw [List.map_map]
  apply List.map_congr_left
  intro p _
  rfl

theorem keys_initial (cw : Crossword) :
    (initialDomains cw).map Prod.fst = cw.vars := by
  unfold initialDomains
  rw [List.map_map]
  have he : (Prod.fst ∘ fun v : Variable => (v, cw.words)) = id := rfl
  rw [he, List.map_id]

/-- C2: completeness of the solver.  If some complete assignment drawn from
the original pre-filtering vocabulary satisfies the consistency checker over
the full set of variables, then solve succeeds: there is enough fuel to make
the embedded solve return a complete consistent assignment, and no amount of
fuel can make it return the explicit unsatisfiable answer None. -/
theorem solver_complete (cw : Crossword) (hwf : cw.WF) (s : Assign)
    (hcomp : assignment_complete cw s = true)
    (hcons : consistent cw s = true)
    (hwords : ∀ p ∈ s, p.2 ∈ cw.words) :
    (∃ fuel m, solve cw fuel = some (some m) ∧
      assignment_complete cw m = true ∧ consistent cw m = true) ∧
    (∀ fuel, ¬ solve cw fuel = some none) := by
  have hsol := solutionFn_of_assign hwf hcomp hcons hwords
  have hd1resp : respects cw (enforce_node_consistency (initialDomains cw))
      (fun v => (lookupA s v).getD []) :=
    respects_enforce (respects_initial (fun v hv => (hsol.1 v hv).1))
      (fun v hv => (hsol.1 v hv).2)
  have hd1keys :
      ((enforce_node_consistency (initialDomains cw)).map Prod.fst).Nodup := by
    rw [keys_enforce, keys_initial]
    exact hwf.1
  obtain ⟨f1, r1, hac⟩ := @ac3Loop_total cw
    (sizeSum (enforce_node_consistency (initialDomains cw)))
    (enforce_node_consistency (initialDomains cw)) le_rfl hd1keys
    (defaultQueue cw)
  obtain ⟨b, d2⟩ := r1
  have hd2resp : respects cw d2 (fun v => (lookupA s v).getD []) :=
    respects_ac3Loop hsol defaultQueue_endpoints hd1resp hac
  obtain ⟨m, a2, d3, hbt⟩ := @backtrack_complete cw
    (fun v => (lookupA s v).getD []) hsol (unassignedCount cw [] + 1) d2 []
    (Nat.lt_succ_self _) hd2resp (goodAssign_nil cw)
    (fun p hp => absurd hp (List.not_mem_nil p))
  have hsound := backtrack_sound hbt (goodAssign_nil cw)
  have hmcons : consistent cw m = true := by
    rcases hsound.2.1 with hc | hc
    · exact hc
    · rw [hc]
      exact consistent_nil cw
  have hFac : ac3Loop cw (max f1 (unassignedCount cw [] + 1))
      (defaultQueue cw) (enforce_node_consistency (initialDomains cw)) =
      some (b, d2) := ac3Loop_mono hac (Nat.le_max_left _ _)
  have hFbt : backtrack cw (max f1 (unassignedCount cw [] + 1)) d2 [] =
      some (some m, a2, d3) := backtrack_mono hbt (Nat.le_max_right _ _)
  constructor
  · refine ⟨max f1 (unassignedCount cw [] + 1), m, ?_, hsound.1, hmcons⟩
    have hac3 : ac3 cw (max f1 (unassignedCount cw [] + 1))
        (enforce_node_consistency (initialDomains cw)) none =
        some (b, d2) := hFac
    simp only [solve]
    rw [hac3]
    dsimp only
    rw [hFbt]
  · intro fuel hbad
    simp only [solve] at hbad
    cases hac2 : ac3 cw fuel (enforce_node_consistency (initialDomains cw))
        none with
    | none =>
      rw [hac2] at hbad
      exact Option.noConfusion hbad
    | some r2 =>
      obtain ⟨b2, d2b⟩ := r2
      rw [hac2] at hbad
      dsimp only at hbad
      cases hbt2 : backtrack cw fuel d2b [] with
      | none =>
        rw [hbt2] at hbad
        exact Option.noConfusion hbad
      | some r3 =>
        obtain ⟨res, a3, d4⟩ := r3
        rw [hbt2] at hbad
        dsimp only at hbad
        have hres : res = none := Option.some.inj hbad
        subst hres
        have hac2' : ac3Loop cw fuel (defaultQueue cw)
            (enforce_node_consistency (initialDomains cw)) =
            some (b2, d2b) := hac2
        have hg1 : ac3Loop cw
            (max fuel (max f1 (unassignedCount cw [] + 1)))
            (defaultQueue cw)
            (enforce_node_consistency (initialDomains cw)) =
            some (b2, d2b) := ac3Loop_mono hac2' (Nat.le_max_left _ _)
        have hg2 : ac3Loop cw
            (max fuel (max f1 (unassignedCount cw [] + 1)))
            (defaultQueue cw)
            (enforce_node_consistency (initialDomains cw)) =
            some (b, d2) := ac3Loop_mono hac
          (le_trans (Nat.le_max_left _ _) (Nat.le_max_right _ _))
        have heq : d2b = d2 := by
          rw [hg1] at hg2
          exact congrArg Prod.snd (Option.some.inj hg2)
        rw [heq] at hbt2
        have hb1 : backtrack cw
            (max fuel (max f1 (unassignedCount cw [] + 1))) d2 [] =
            some (none, a3, d4) := backtrack_mono hbt2 (Nat.le_max_left _ _)
        have hb2 : backtrack cw
            (max fuel (max f1 (unassignedCount cw [] + 1))) d2 [] =
            some (some m, a2, d3) := backtrack_mono hbt
          (le_trans (Nat.le_max_right _ _) (Nat.le_max_right _ _))
        rw [hb1] at hb2
        have := congrArg (fun z => z.1) (Option.some.inj hb2)
        exact Option.noConfusion this

theorem solver_complete_witness :
    (∃ fuel m, solve cwA fuel = some (some m) ∧
      assignment_complete cwA m = true ∧ consistent cwA m = true) ∧
    (∀ fuel, ¬ solve cwA fuel = some none) :=
  solver_complete cwA (by decide) [(vA, wBAD), (vB, wADD)] (by decide)
    (by decide) (by decide)
